import Mathlib

/-!
Verification of the Similarity Clustering & Farm-Detection Engine
(`Scripts/Filters/MainFilter.py`) against its specification.

Conventions of the shallow embedding:
* Python strings are modelled as lists of Unicode codepoints (`Str := List Nat`).
* Python floats are modelled as exact rationals (`ℚ`); the concrete
  comparisons the program performs (`>= 0.999`, `>= 0.70`, `<= 0.30`) are
  exact at every input used in a theorem below, so no double-rounding issue
  can flip a branch there.
* Python dicts that the program iterates are modelled as association lists in
  insertion order; Python sets are modelled as lists in insertion order
  (set iteration order is implementation defined in CPython; all
  membership facts proved below are independent of that order).
-/

namespace LF

/-- Strings as lists of Unicode codepoints. -/
abbrev Str := List Nat

/-- Convert a Lean string literal to the codepoint-list model. -/
def strOf (s : String) : Str := s.data.map Char.toNat

/-- ASCII codepoints matched by Python's `\s` and stripped by `str.strip()`:
tab, LF, VT, FF, CR, FS, GS, RS, US, space. -/
def isSpaceCh (c : Nat) : Bool :=
  c == 9 || c == 10 || c == 11 || c == 12 || c == 13 ||
  c == 28 || c == 29 || c == 30 || c == 31 || c == 32

/-- `[a-z]`. -/
def isLowerCh (c : Nat) : Bool := 97 ≤ c && c ≤ 122

/-- `[0-9]`. -/
def isDigitCh (c : Nat) : Bool := 48 ≤ c && c ≤ 57

/-- `[a-z0-9]`. -/
def isAlnumCh (c : Nat) : Bool := isLowerCh c || isDigitCh c

/-- The character class kept by `re.sub(r'[^a-z0-9\s\-_\.@!$+]', '', base)`. -/
def isKeptCh (c : Nat) : Bool :=
  isAlnumCh c || isSpaceCh c || c == 45 || c == 95 || c == 46 ||
  c == 64 || c == 33 || c == 36 || c == 43

/-- The separator class `[\s\-_\.@!$+]` collapsed to a space when building v1. -/
def isSep1Ch (c : Nat) : Bool :=
  isSpaceCh c || c == 45 || c == 95 || c == 46 || c == 64 || c == 33 ||
  c == 36 || c == 43

/-- The separator class `[\s\-_\.]` removed by `remove_separators`. -/
def isSep2Ch (c : Nat) : Bool := isSpaceCh c || c == 45 || c == 95 || c == 46

/-- Model of the third-party `unidecode` transliteration used by the script
(the library is not part of this repository).  ASCII codepoints map to
themselves; U+00DF LATIN SMALL LETTER SHARP S transliterates to "ss" per the
unidecode table (the one expanding entry a theorem below uses); remaining
non-ASCII codepoints are modelled as dropped, which is unidecode's behaviour
for unmapped codepoints.  Every universally quantified theorem below about
the pipeline after transliteration holds for an arbitrary transliteration
output, so this partial table does not narrow those results. -/
def unidecodeChar (c : Nat) : Str :=
  if c < 128 then [c] else if c = 223 then [115, 115] else []

/-- `unidecode(raw or "")` applied codepoint by codepoint. -/
def pyUnidecode (s : Str) : Str := s.flatMap unidecodeChar

/-- The `HOMOGLYPHS` table of `MainFilter.py` as codepoint pairs:
฿→b, €→e, £→l, ₩→w, ¥→y, ©→c, ®→r. -/
def HOMOGLYPHS : List (Nat × Nat) :=
  [(3647, 98), (8364, 101), (163, 108), (8361, 119), (165, 121), (169, 99), (174, 114)]

/-- `replace_homoglyphs`: successive `str.replace` with single-codepoint keys
and values, i.e. a codepoint-wise substitution for each table entry. -/
def replace_homoglyphs (s : Str) : Str :=
  HOMOGLYPHS.foldl (fun t kv => t.map (fun c => if c = kv.1 then kv.2 else c)) s

/-- ASCII `str.lower()` on one codepoint (inputs reaching it are ASCII,
having passed through transliteration). -/
def lowerCh (c : Nat) : Nat := if 65 ≤ c && c ≤ 90 then c + 32 else c

/-- `str.lower()`. -/
def pyLower (s : Str) : Str := s.map lowerCh

/-- `str.strip()`. -/
def pyStrip (s : Str) : Str :=
  ((s.dropWhile isSpaceCh).reverse.dropWhile isSpaceCh).reverse

/-- `re.sub(r'[\s\-_\.@!$+]+', ' ', s)`: each maximal run of separators
becomes one space.  In the fold, an output head of 32 can only have been
produced from a separator run (a literal space is itself a separator), so
merging with it reproduces the maximal-run semantics. -/
def subSep1Space (s : Str) : Str :=
  s.foldr
    (fun c acc =>
      if isSep1Ch c then (if acc.head? = some 32 then acc else 32 :: acc)
      else c :: acc) []

/-- `re.sub(r'\s+', ' ', s)`: each maximal whitespace run becomes one space. -/
def subWsSpace (s : Str) : Str :=
  s.foldr
    (fun c acc =>
      if isSpaceCh c then (if acc.head? = some 32 then acc else 32 :: acc)
      else c :: acc) []

/-- `collapse_repeats`: `re.sub(r'(.)\1{2,}', r'\1\1', s)` — every maximal
run of three or more equal codepoints is cut down to exactly two. -/
def collapse_repeats : Str → Str
  | [] => []
  | c :: rest =>
      List.replicate (min (rest.takeWhile (fun d => d == c)).length.succ 2) c ++
        collapse_repeats (rest.dropWhile (fun d => d == c))
termination_by s => s.length
decreasing_by
  simp only [List.length_cons]
  have h : ∀ (l : List Nat), (l.dropWhile (fun d => d == c)).length ≤ l.length := by
    intro l
    induction l with
    | nil => simp [List.dropWhile]
    | cons x t ih =>
        simp only [List.dropWhile]
        by_cases hx : (x == c) = true
        · simp only [hx]
          exact Nat.le_trans ih (Nat.le_succ _)
        · simp only [Bool.not_eq_true] at hx
          simp [hx]
  have := h rest
  omega

/-- `remove_separators`: `re.sub(r'[\s\-_\.]+', '', s)`. -/
def remove_separators (s : Str) : Str := s.filter (fun c => !isSep2Ch c)

/-- The `LEET_SUBS` table as codepoint pairs
(4→a, @→a, 8→b, 3→e, 6→g, 9→g, 1→l, !→i, 0→o, 5→s, $→s, 7→t, +→t, 2→z). -/
def LEET_SUBS : List (Nat × Nat) :=
  [(52, 97), (64, 97), (56, 98), (51, 101), (54, 103), (57, 103), (49, 108),
   (33, 105), (48, 111), (53, 115), (36, 115), (55, 116), (43, 116), (50, 122)]

/-- Lookup in the leet table. -/
def leetLookup (c : Nat) : Option Nat :=
  (LEET_SUBS.find? (fun p => p.1 == c)).map Prod.snd

/-- `de_leet`: lowercase each codepoint and substitute via `LEET_SUBS`. -/
def de_leet (s : Str) : Str :=
  s.map (fun c =>
    match leetLookup (lowerCh c) with
    | some d => d
    | none => lowerCh c)

/-- `stripped_numbers`: `re.sub(r'\d+', '', s)`. -/
def stripped_numbers (s : Str) : Str := s.filter (fun c => !isDigitCh c)

/-- The manual de-duplication loop over the 12 generated variants
(first occurrence wins, order preserved). -/
def uniqKeep (l : List Str) : List Str :=
  l.foldl (fun acc x => if x ∈ acc then acc else acc ++ [x]) []

/-- The final reduction `re.sub(r'[^a-z0-9]+', '', u)`. -/
def cleanAlnum (s : Str) : Str := s.filter isAlnumCh

/-- The base string of `normalize_name_variants` before variant generation. -/
def nnvBase (raw : Str) : Str :=
  pyStrip ((pyLower (replace_homoglyphs (pyUnidecode raw))).filter isKeptCh)

/-- Variant v1 derived from a base string. -/
def nnvV1 (base : Str) : Str := subWsSpace (pyStrip (subSep1Space base))

/-- The ordered 12-variant generation list of `normalize_name_variants`. -/
def nnvRaw12 (base : Str) : List Str :=
  let v1 := nnvV1 base
  let v2 := collapse_repeats v1
  let v3 := remove_separators v2
  let dl1 := de_leet v1
  let dl2 := de_leet v2
  let dl3 := de_leet v3
  [v1, v2, v3, dl1, dl2, dl3,
   stripped_numbers v1, stripped_numbers v2, stripped_numbers v3,
   stripped_numbers dl1, stripped_numbers dl2, stripped_numbers dl3]

/-- `normalize_name_variants` with the script's fixed `LEET_MODE = True`
default (the pipeline never calls it otherwise). -/
def normalize_name_variants (raw : Str) : List Str :=
  ((uniqKeep (nnvRaw12 (nnvBase raw))).map cleanAlnum).filter
    (fun c => !c.isEmpty)

/-!
Model of `difflib.SequenceMatcher(None, a, b).ratio()` as called by
`name_similarity`.  With a `None` junk function the junk set `bjunk` is
empty, so the two junk-extension loops of `find_longest_match` never fire
and are omitted; the two non-junk extension loops keep their `not isbjunk`
condition as the constant true.  The autojunk heuristic (elements occurring
in more than 1% of `b` when `len(b) >= 200` are dropped from `b2j`) is
modelled exactly.  This model was validated case-by-case against CPython's
difflib on tens of thousands of random inputs covering both autojunk
regimes.
-/

/-- Append position `i` for codepoint `c` in the `b2j` association list,
preserving first-insertion key order and ascending position order. -/
def addPos : List (Nat × List Nat) → Nat → Nat → List (Nat × List Nat)
  | [], c, i => [(c, [i])]
  | (k, ps) :: rest, c, i =>
      if k = c then (k, ps ++ [i]) :: rest else (k, ps) :: addPos rest c i

/-- `b2j` before the autojunk purge: each codepoint of `b` maps to its
ascending list of positions. -/
def buildB2jAll (b : Str) : List (Nat × List Nat) :=
  b.enum.foldl (fun m p => addPos m p.2 p.1) []

/-- `b2j` after the autojunk purge: for `len(b) >= 200`, codepoints with more
than `len(b) // 100 + 1` occurrences ("popular" elements) are removed. -/
def b2jPurged (b : Str) : List (Nat × List Nat) :=
  let m := buildB2jAll b
  if 200 ≤ b.length then m.filter (fun p => p.2.length ≤ b.length / 100 + 1)
  else m

/-- `b2j.get(c, [])`. -/
def b2jGet (m : List (Nat × List Nat)) (c : Nat) : List Nat :=
  match m.find? (fun p => p.1 == c) with
  | some p => p.2
  | none => []

/-- `j2len.get(j, 0)`. -/
def jlGet (m : List (Nat × Nat)) (j : Nat) : Nat :=
  match m.find? (fun p => p.1 == j) with
  | some p => p.2
  | none => 0

/-- `j2len.get(j - 1, 0)` guarded for `j = 0` (Python's `-1` is never a key). -/
def jlGetPred (m : List (Nat × Nat)) (j : Nat) : Nat :=
  if j = 0 then 0 else jlGet m (j - 1)

/-- Inner loop of `find_longest_match` over the ascending position list
`b2j[a[i]]`, with `continue` below `blo` and `break` at `bhi`; builds
`newj2len` and updates the running best block `(besti, bestj, bestsize)`. -/
def flmInner (i blo bhi : Nat) (prev : List (Nat × Nat)) :
    List Nat → List (Nat × Nat) → Nat × Nat × Nat →
    List (Nat × Nat) × (Nat × Nat × Nat)
  | [], acc, best => (acc, best)
  | j :: js, acc, best =>
      if j < blo then flmInner i blo bhi prev js acc best
      else if bhi ≤ j then (acc, best)
      else
        flmInner i blo bhi prev js (acc ++ [(j, jlGetPred prev j + 1)])
          (if best.2.2 < jlGetPred prev j + 1 then
            (i + 1 - (jlGetPred prev j + 1), j + 1 - (jlGetPred prev j + 1),
              jlGetPred prev j + 1)
          else best)

/-- Outer loop of `find_longest_match` over `i in range(alo, ahi)`. -/
def flmOuter (a : Str) (m : List (Nat × List Nat)) (blo bhi : Nat) :
    List Nat → List (Nat × Nat) → Nat × Nat × Nat → Nat × Nat × Nat
  | [], _, best => best
  | i :: is, j2len, best =>
      let st := flmInner i blo bhi j2len (b2jGet m (a.getD i 0)) [] best
      flmOuter a m blo bhi is st.1 st.2

/-- The left extension loop
`while besti > alo and bestj > blo and a[besti-1] == b[bestj-1]`. -/
def extLeft (a b : Str) (alo blo : Nat) : Nat → Nat → Nat → Nat × Nat × Nat
  | bi, bj, k =>
      if h : alo < bi ∧ blo < bj ∧ a.getD (bi - 1) 0 = b.getD (bj - 1) 0 then
        extLeft a b alo blo (bi - 1) (bj - 1) (k + 1)
      else (bi, bj, k)
termination_by bi => bi
decreasing_by omega

/-- The right extension loop
`while besti+bestsize < ahi and bestj+bestsize < bhi and a[..] == b[..]`. -/
def extRightSize (a b : Str) (ahi bhi bi bj : Nat) : Nat → Nat
  | k =>
      if h : bi + k < ahi ∧ bj + k < bhi ∧
          a.getD (bi + k) 0 = b.getD (bj + k) 0 then
        extRightSize a b ahi bhi bi bj (k + 1)
      else k
termination_by k => ahi - (bi + k)
decreasing_by omega

/-- `find_longest_match(alo, ahi, blo, bhi)` for a junk-free matcher. -/
def find_longest_match (a b : Str) (m : List (Nat × List Nat))
    (alo ahi blo bhi : Nat) : Nat × Nat × Nat :=
  let d := flmOuter a m blo bhi (List.range' alo (ahi - alo)) [] (alo, blo, 0)
  let e := extLeft a b alo blo d.1 d.2.1 d.2.2
  (e.1, e.2.1, extRightSize a b ahi bhi e.1 e.2.1 e.2.2)

/-- Total size of all matching blocks found by the `get_matching_blocks`
queue recursion (its sort and adjacent-merge steps do not change the sum,
which is all `ratio()` reads).  The bound conjuncts `i + k ≤ ahi` etc. in
the recursion guards are redundant — `find_longest_match` always returns a
block inside the window (proved below as `flm_bounds`) — and are present
only to make the recursion well-founded by a window-size measure. -/
def matchSum (a b : Str) (m : List (Nat × List Nat)) :
    Nat → Nat → Nat → Nat → Nat
  | alo, ahi, blo, bhi =>
      let t := find_longest_match a b m alo ahi blo bhi
      if _hk : t.2.2 = 0 then 0
      else
        t.2.2 +
          (if _hl : alo < t.1 ∧ blo < t.2.1 ∧ t.1 + t.2.2 ≤ ahi ∧
              t.2.1 + t.2.2 ≤ bhi then
            matchSum a b m alo t.1 blo t.2.1
          else 0) +
          (if _hr : t.1 + t.2.2 < ahi ∧ t.2.1 + t.2.2 < bhi ∧ alo ≤ t.1 ∧
              blo ≤ t.2.1 then
            matchSum a b m (t.1 + t.2.2) ahi (t.2.1 + t.2.2) bhi
          else 0)
termination_by alo ahi blo bhi => (ahi - alo) + (bhi - blo)
decreasing_by
  · unfold t at *
    omega
  · unfold t at *
    omega

/-- `SequenceMatcher(None, a, b).ratio()`:
`2 * M / (len(a) + len(b))`, and 1.0 when both are empty. -/
def smRatio (a b : Str) : ℚ :=
  if a.length + b.length = 0 then 1
  else
    (2 * (matchSum a b (b2jPurged b) 0 a.length 0 b.length) : ℚ) /
      (a.length + b.length)

/-- `name_similarity`. -/
def name_similarity (a b : Str) : ℚ :=
  if a.isEmpty || b.isEmpty then 0 else smRatio a b

/-- The cross-product pair list scanned by `max_variant_similarity`
(row-major: all `bv` for the first `av`, then the next `av`, ...). -/
def allPairs (a b : Str) : List (Str × Str) :=
  (normalize_name_variants a).flatMap
    (fun av => (normalize_name_variants b).map (fun bv => (av, bv)))

/-- The double loop of `max_variant_similarity`: carry the best ratio so
far, and return immediately once the updated best is `>= 0.999`. -/
def scanPairs : List (Str × Str) → ℚ → ℚ
  | [], best => best
  | p :: rest, best =>
      if best < name_similarity p.1 p.2 then
        (if (999 : ℚ) / 1000 ≤ name_similarity p.1 p.2 then
          name_similarity p.1 p.2
        else scanPairs rest (name_similarity p.1 p.2))
      else scanPairs rest best

/-- `max_variant_similarity`. -/
def max_variant_similarity (a b : Str) : ℚ := scanPairs (allPairs a b) 0

/-- The maximum cross-product ratio (what the specification says
`max_variant_similarity` returns): no short-circuit. -/
def maxCrossRatio (a b : Str) : ℚ :=
  (allPairs a b).foldr (fun p acc => max (name_similarity p.1 p.2) acc) 0

/-- Stable ascending insertion used to model `sorted(vals)` (for a totally
ordered value type the sorted value sequence is unique, so any correct
ascending sort models Python's). -/
def insortQ (x : ℚ) : List ℚ → List ℚ
  | [] => [x]
  | y :: t => if x ≤ y then x :: y :: t else y :: insortQ x t

/-- Ascending sort. -/
def sortQ (l : List ℚ) : List ℚ := l.foldr insortQ []

/-- `statistics.median`: middle element for odd length, mean of the two
middle elements for even length.  Python raises `StatisticsError` on `[]`;
the callers below never reach that case (`scores_consistent` first checks
`len < 2`, `build_group_payload` checks non-emptiness), so the `[]` value
here is arbitrary. -/
def pyMedian (l : List ℚ) : ℚ :=
  let s := sortQ l
  if l.length % 2 = 1 then s.getD (l.length / 2) 0
  else (s.getD (l.length / 2 - 1) 0 + s.getD (l.length / 2) 0) / 2

/-- The early-exit loop of `scores_consistent` for a non-zero median. -/
def consLoop (med tol : ℚ) : List ℚ → Bool
  | [] => true
  | v :: rest =>
      if tol < |v - med| / max |med| 1 then false else consLoop med tol rest

/-- `scores_consistent`. -/
def scores_consistent (vals : List ℚ) (tolerance_ratio : ℚ) : Bool :=
  if vals.length < 2 then false
  else
    if pyMedian vals = 0 then vals.all (fun v => |v| ≤ tolerance_ratio)
    else consLoop (pyMedian vals) tolerance_ratio vals

/-!  `numeric_score` and the Python `float()` string grammar. -/

/-- A Python float: finite value (modelled exactly as a rational — CPython
rounds to binary64 and can overflow to infinity; no theorem below depends on
the rounded magnitude of a parsed string), or nan / ±inf. -/
inductive PyFloat where
  | fin (q : ℚ)
  | nan
  | inf
  | ninf
deriving DecidableEq, Repr

/-- A JSON-shaped Python value as loaded by `json.load` (the only values
`numeric_score` receives). `bool` is listed separately although Python's
`bool` is a subclass of `int` — which is exactly why `isinstance(val, (int,
float))` accepts it. -/
inductive PyVal where
  | int (n : ℤ)
  | float (f : PyFloat)
  | bool (b : Bool)
  | str (s : Str)
  | none
  | arr (l : List PyVal)
  | obj (l : List (Str × PyVal))
deriving Repr

/-- One ASCII digit? -/
def digitVal (c : Nat) : Option Nat :=
  if 48 ≤ c ∧ c ≤ 57 then some (c - 48) else Option.none

/-- Parse a digit group with PEP-515 underscores (`digit (('_')? digit)*`),
returning the accumulated value, the number of digits consumed, and the rest
of the input.  Fails if the group does not start with a digit. -/
def parseDigits : Str → Option (Nat × Nat × Str)
  | [] => Option.none
  | c :: rest =>
      match digitVal c with
      | Option.none => Option.none
      | some d => some (parseDigitsAux d 1 rest)
where
  parseDigitsAux (acc len : Nat) : Str → Nat × Nat × Str
    | [] => (acc, len, [])
    | c :: rest =>
        match digitVal c with
        | some d => parseDigitsAux (acc * 10 + d) (len + 1) rest
        | Option.none =>
            if c = 95 then
              match rest with
              | [] => (acc, len, 95 :: rest)
              | c2 :: rest2 =>
                  match digitVal c2 with
                  | some d2 => parseDigitsAux (acc * 10 + d2) (len + 1) rest2
                  | Option.none => (acc, len, 95 :: rest)
            else (acc, len, c :: rest)

/-- Case-insensitive ASCII keyword match, consuming the whole input. -/
def kwMatch (kw : List Nat) (s : Str) : Bool :=
  match kw, s with
  | [], [] => true
  | k :: kt, c :: ct => if lowerCh c = k then kwMatch kt ct else false
  | _, _ => false

/-- Parse mantissa and optional exponent after the sign:
`(digits [. [digits]] | . digits) [ (e|E) [sign] digits ]`,
requiring the whole remaining input to be consumed. -/
def parseNumber (s : Str) : Option ℚ :=
  match parseDigits s with
  | some (ip, _, rest) =>
      match rest with
      | 46 :: rest2 =>
          match parseDigits rest2 with
          | some (fp, fl, rest3) => parseExp ((ip : ℚ) + (fp : ℚ) / (10 : ℚ) ^ fl) rest3
          | Option.none => parseExp (ip : ℚ) rest2
      | _ => parseExp (ip : ℚ) rest
  | Option.none =>
      match s with
      | 46 :: rest2 =>
          match parseDigits rest2 with
          | some (fp, fl, rest3) => parseExp ((fp : ℚ) / (10 : ℚ) ^ fl) rest3
          | Option.none => Option.none
      | _ => Option.none
where
  parseExp (mant : ℚ) : Str → Option ℚ
    | [] => some mant
    | c :: rest =>
        if c = 101 ∨ c = 69 then
          match rest with
          | 43 :: rest2 =>
              match parseDigits rest2 with
              | some (e, _, []) => some (mant * (10 : ℚ) ^ e)
              | _ => Option.none
          | 45 :: rest2 =>
              match parseDigits rest2 with
              | some (e, _, []) => some (mant / (10 : ℚ) ^ e)
              | _ => Option.none
          | _ =>
              match parseDigits rest with
              | some (e, _, []) => some (mant * (10 : ℚ) ^ e)
              | _ => Option.none
        else Option.none

/-- Model of Python `float(s)` on an ASCII string: strip whitespace (the
ASCII characters Python treats as space, including `\x1c`–`\x1f`), optional
sign, then either a case-insensitive `inf`/`infinity`/`nan` keyword or a
decimal number, consuming the whole string.  On non-ASCII input CPython
first strips *Unicode* whitespace and converts *Unicode* decimal digits
(category `Nd`) to ASCII; that pre-transform is not modelled, so the string
conjunct of the amended C10 statement carries the hypothesis that every
codepoint is below 128, on which domain this grammar is CPython's. -/
def pyFloatOfStr (s : Str) : Option PyFloat :=
  let t := pyStrip s
  match t with
  | 43 :: rest => pyFloatBody rest false
  | 45 :: rest => pyFloatBody rest true
  | _ => pyFloatBody t false
where
  pyFloatBody (t : Str) (neg : Bool) : Option PyFloat :=
    if kwMatch (strOf "nan") t then some PyFloat.nan
    else if kwMatch (strOf "inf") t ∨ kwMatch (strOf "infinity") t then
      some (if neg then PyFloat.ninf else PyFloat.inf)
    else
      match parseNumber t with
      | some q => some (PyFloat.fin (if neg then -q else q))
      | Option.none => Option.none

/-- `2^1024 - 2^970`: the smallest integer magnitude on which CPython's
`float()` raises `OverflowError`.  Every smaller magnitude rounds
(half-even, 53-bit significand) to a finite binary64 of magnitude at most
`2^1024 - 2^971`; this value is the midpoint above that largest finite
double and rounds to the even `2^1024`, past the range.  Written as a
numeral so that evaluating the orchestrator examples compares literals;
`ovfThreshold_eq` below proves the closed form. -/
def ovfThreshold : ℕ := 179769313486231580793728971405303415079934132710037826936173778980444968292764750946649017977587207096330286416692887910946555547851940402630657488671505820681908902000708383676273854845817711531764475730270069855571366959622842914819860834936475292719074168444365510704342711559699508093042880177904174497792

/-- `numeric_score`.  For `int`/`float` inputs (including `bool`, a subclass
of `int`) the `isinstance` branch applies, and its `float(val)` call sits
*outside* the `try`: on an `int` whose magnitude is at least
`2^1024 - 2^970` — the smallest magnitude that rounds (half-even, 53-bit
significand) to `2^1024`, past the largest finite binary64 — CPython raises
`OverflowError`, which escapes `numeric_score`; that outcome is modelled as
`Except.error ()`.  `float` inputs (including `nan`/`±inf`) and `bool`
inputs never raise.  Otherwise `float(str(val))` is attempted *inside* the
`try`, so it returns `None` on failure and never raises (numeric overflow
in string parsing yields `±inf`, not an exception; the exact-rational model
of parsed values is stated at `PyFloat`).  `str(None) = "None"` is fed to
the parser; the `str()` of a list or dict begins with `[` or `{`, which the
float grammar rejects (see `pyFloatOfStr_bracket` below), so those cases
are modelled as direct failure. -/
def numeric_score : PyVal → Except Unit (Option PyFloat)
  | PyVal.int n =>
      if ovfThreshold ≤ n.natAbs then Except.error ()
      else Except.ok (some (PyFloat.fin n))
  | PyVal.float f => Except.ok (some f)
  | PyVal.bool b => Except.ok (some (PyFloat.fin (if b then 1 else 0)))
  | PyVal.str s => Except.ok (pyFloatOfStr s)
  | PyVal.none => Except.ok (pyFloatOfStr (strOf "None"))
  | PyVal.arr _ => Except.ok Option.none
  | PyVal.obj _ => Except.ok Option.none

/-- The slice of an account record the engine reads: the `latest` object
with its optional `username` string, and the optional `score` entry (raw
JSON value).  `latest = Option.none` models a record with no `latest` key;
`username = Option.none` models `latest` without a `username` string. -/
structure Account where
  latest : Option (Option Str)
  score : Option PyVal
deriving Repr

/-- `udata.get("latest", {}).get("username") or ""`: missing `latest`,
missing `username`, or an empty `username` all give `""`. -/
def unameOf (a : Account) : Str :=
  match a.latest with
  | Option.none => []
  | some l =>
      match l with
      | Option.none => []
      | some u => u

/-- The `(uid, username)` entries list of `cluster_similar_users`, in dict
insertion order. -/
def clusterEntries (users : List (Str × Account)) : List (Str × Str) :=
  users.map (fun p => (p.1, unameOf p.2))

/-- `name_map[uid]`: the username recorded for `uid` (the entries come from
a dict, so keys are distinct and the first match is the binding). -/
def nameMapGet (entries : List (Str × Str)) (uid : Str) : Str :=
  ((entries.find? (fun e => e.1 == uid)).map Prod.snd).getD []

/-- The seed loop of `cluster_similar_users`: `entries` is the fixed full
entries list backing `name_map`, `todo` the entries still to iterate, and
`unassigned` the unassigned-uid set (modelled as a list in insertion order;
every membership fact proved below is independent of the iteration order
CPython's set would use).  For each seed, the scan over a snapshot of
`unassigned` that appends matches to the group and the removal of those
matches from the set are together modelled by one partition of `un1`. -/
def clusterLoop (entries : List (Str × Str)) (thr : ℚ) (min_group : Nat) :
    List (Str × Str) → List Str → List (List Str)
  | [], _ => []
  | (uid, nm) :: rest, unassigned =>
      if uid ∈ unassigned then
        (if min_group ≤
            (uid :: (unassigned.erase uid).filter
              (fun other => thr ≤ max_variant_similarity nm (nameMapGet entries other))).length
        then
          (uid :: (unassigned.erase uid).filter
            (fun other => thr ≤ max_variant_similarity nm (nameMapGet entries other))) ::
            clusterLoop entries thr min_group rest
              ((unassigned.erase uid).filter
                (fun other => ¬ thr ≤ max_variant_similarity nm (nameMapGet entries other)))
        else
          clusterLoop entries thr min_group rest
            ((unassigned.erase uid).filter
              (fun other => ¬ thr ≤ max_variant_similarity nm (nameMapGet entries other))))
      else clusterLoop entries thr min_group rest unassigned

/-- `cluster_similar_users`. -/
def cluster_similar_users (users : List (Str × Account)) (name_threshold : ℚ)
    (min_group : Nat) : List (List Str) :=
  clusterLoop (clusterEntries users) name_threshold min_group
    (clusterEntries users) ((clusterEntries users).map Prod.fst)

/-!  Group payload and batch orchestration (`build_group_payload`,
`process_batches`).  Only the payload fields the keep/discard decision reads
are modelled; file-system I/O is outside the embedding. -/

/-- The same seed loop, but returning every candidate group, kept or not
(`cluster_similar_users` keeps exactly those of size `≥ min_group`); used to
state that members of discarded undersized groups are never re-queued. -/
def clusterLoopAll (entries : List (Str × Str)) (thr : ℚ) :
    List (Str × Str) → List Str → List (List Str)
  | [], _ => []
  | (uid, nm) :: rest, unassigned =>
      if uid ∈ unassigned then
        (uid :: (unassigned.erase uid).filter
          (fun other => thr ≤ max_variant_similarity nm (nameMapGet entries other))) ::
          clusterLoopAll entries thr rest
            ((unassigned.erase uid).filter
              (fun other => ¬ thr ≤ max_variant_similarity nm (nameMapGet entries other)))
      else clusterLoopAll entries thr rest unassigned

/-- Ascending positions of codepoint `c` in `b` (the value `b2j` stores). -/
def posList (b : Str) (c : Nat) : List Nat :=
  (b.enum.filter (fun p => p.2 == c)).map Prod.fst

/-- The autojunk popularity predicate on `b`'s codepoints. -/
def popS (b : Str) (c : Nat) : Prop :=
  200 ≤ b.length ∧ b.length / 100 + 1 < b.count c

instance (b : Str) (c : Nat) : Decidable (popS b c) := by
  unfold popS; infer_instance

/-- Length of the maximal run of non-popular codepoints of `s` ending at
position `p` (the longest chain the `j2len` dynamic program can build at an
aligned cell); used by the self-similarity analysis. -/
def nrF (s : Str) : Nat → Nat
  | 0 => if popS s (s.getD 0 0) then 0 else 1
  | p + 1 => if popS s (s.getD (p + 1) 0) then 0 else nrF s p + 1

/-- Invariant of the `j2len` association list during the dynamic program:
keys lie in the `b` window and values are bounded by the chain-length limits
from each side. -/
def JInv (blo bhi bnd : Nat) (m : List (Nat × Nat)) : Prop :=
  ∀ p ∈ m, blo ≤ p.1 ∧ p.1 < bhi ∧ p.2 ≤ p.1 + 1 - blo ∧ p.2 ≤ bnd

/-- Invariant of the running best block: it lies inside the window, or is
still the initial empty block. -/
def BInv (alo ahi blo bhi : Nat) (b : Nat × Nat × Nat) : Prop :=
  alo ≤ b.1 ∧ blo ≤ b.2.1 ∧
    (b.1 + b.2.2 ≤ ahi ∧ b.2.1 + b.2.2 ≤ bhi ∨
      (b.2.2 = 0 ∧ b.1 = alo ∧ b.2.1 = blo))

/-- Chain capacity of the `j2len` dynamic program at cell `(i, j)` when the
matcher compares `s` with itself over the full window `[0, s.length)`: the
longest backwards run of equal codepoints ending at `(i, j)` whose `b`-side
codepoints are all non-popular.  The running chain value at a processed cell
never exceeds it, and equals it on the diagonal. -/
def dext (s : Str) : Nat → Nat → Nat
  | i, j =>
      if s.getD i 0 = s.getD j 0 ∧ ¬ popS s (s.getD j 0) then
        (if h : 0 < i ∧ 0 < j then dext s (i - 1) (j - 1) + 1 else 1)
      else 0
termination_by i _ => i
decreasing_by omega

/-- Chain-capacity bound for a `j2len` state: after `r` processed rows the
stored values are bounded by the capacities of row `r - 1` (the empty bound
when no row was processed yet). -/
def dextR (s : Str) : Nat → Nat → Nat
  | 0, _ => 0
  | r + 1, k => dext s r k

/-- Invariant of the outer `find_longest_match` loop when `a = b = s` over the
full window: `j2len` values bounded by the chain capacities, the entry at the
previous diagonal cell exact, and the running best block diagonal and
dominating every processed diagonal capacity. -/
def OutInv (s : Str) (r : Nat) (m : List (Nat × Nat)) (best : Nat × Nat × Nat) : Prop :=
  (∀ k, jlGet m k ≤ dextR s r k) ∧
  (∀ r', r' + 1 = r → ¬ popS s (s.getD r' 0) → jlGet m r' = dext s r' r') ∧
  best.1 = best.2.1 ∧
  (∀ r' < r, dext s r' r' ≤ best.2.2)

/-!  Concrete inputs used by counterexamples. -/

/-- `"a" * 999 + "1"`. -/
def cxA : Str := List.replicate 999 97 ++ [49]

/-- `"a" * 999 + "2"`. -/
def cxB : Str := List.replicate 999 97 ++ [50]

theorem uniqKeep_step_subset (acc : List Str) (x y : Str)
    (h : y ∈ (if x ∈ acc then acc else acc ++ [x])) : y ∈ acc ∨ y = x := by
  by_cases hx : x ∈ acc
  · simp [hx] at h; exact Or.inl h
  · simp [hx] at h; rcases h with h | h
    · exact Or.inl h
    · exact Or.inr h

theorem uniqKeep_aux_subset (l : List Str) :
    ∀ (acc : List Str) (y : Str),
      y ∈ l.foldl (fun acc x => if x ∈ acc then acc else acc ++ [x]) acc →
        y ∈ acc ∨ y ∈ l := by
  induction l with
  | nil => intro acc y h; exact Or.inl h
  | cons x t ih =>
      intro acc y h
      simp only [List.foldl_cons] at h
      rcases ih _ _ h with h' | h'
      · rcases uniqKeep_step_subset acc x y h' with h'' | h''
        · exact Or.inl h''
        · exact Or.inr (by simp [h''])
      · exact Or.inr (by simp [h'])

theorem uniqKeep_subset (l : List Str) (y : Str) (h : y ∈ uniqKeep l) : y ∈ l := by
  rcases uniqKeep_aux_subset l [] y h with h' | h'
  · simp at h'
  · exact h'

theorem uniqKeep_aux_nodup (l : List Str) :
    ∀ (acc : List Str), acc.Nodup →
      (l.foldl (fun acc x => if x ∈ acc then acc else acc ++ [x]) acc).Nodup := by
  induction l with
  | nil => intro acc h; exact h
  | cons x t ih =>
      intro acc h
      simp only [List.foldl_cons]
      apply ih
      by_cases hx : x ∈ acc
      · simpa [hx] using h
      · simp only [hx, if_false]
        exact List.Nodup.append h (List.nodup_singleton x)
          (by simp [List.disjoint_singleton]; exact hx)

theorem uniqKeep_nodup (l : List Str) : (uniqKeep l).Nodup :=
  uniqKeep_aux_nodup l [] List.nodup_nil

theorem uniqKeep_aux_length (l : List Str) :
    ∀ (acc : List Str),
      (l.foldl (fun acc x => if x ∈ acc then acc else acc ++ [x]) acc).length ≤
        acc.length + l.length := by
  induction l with
  | nil => intro acc; simp
  | cons x t ih =>
      intro acc
      simp only [List.foldl_cons, List.length_cons]
      by_cases hx : x ∈ acc
      · simp only [hx, if_true]
        exact Nat.le_trans (ih acc) (by omega)
      · simp only [hx, if_false]
        have := ih (acc ++ [x])
        simp only [List.length_append, List.length_singleton] at this
        omega

theorem uniqKeep_length_le (l : List Str) : (uniqKeep l).length ≤ l.length := by
  have := uniqKeep_aux_length l []
  simpa [uniqKeep] using this

theorem nnvRaw12_length (base : Str) : (nnvRaw12 base).length = 12 := rfl

theorem variants_length_le (raw : Str) :
    (normalize_name_variants raw).length ≤ 12 := by
  unfold normalize_name_variants
  calc (((uniqKeep (nnvRaw12 (nnvBase raw))).map cleanAlnum).filter
          (fun c => !c.isEmpty)).length
      ≤ ((uniqKeep (nnvRaw12 (nnvBase raw))).map cleanAlnum).length :=
        List.length_filter_le _ _
    _ = (uniqKeep (nnvRaw12 (nnvBase raw))).length := List.length_map _ _
    _ ≤ (nnvRaw12 (nnvBase raw)).length := uniqKeep_length_le _
    _ = 12 := nnvRaw12_length _

theorem variants_mem_struct (raw : Str) (v : Str)
    (h : v ∈ normalize_name_variants raw) :
    (∃ u, u ∈ nnvRaw12 (nnvBase raw) ∧ v = cleanAlnum u) ∧ v ≠ [] := by
  unfold normalize_name_variants at h
  rw [List.mem_filter] at h
  obtain ⟨hmap, hne⟩ := h
  rw [List.mem_map] at hmap
  obtain ⟨u, hu, huv⟩ := hmap
  refine ⟨⟨u, uniqKeep_subset _ _ hu, huv.symm⟩, ?_⟩
  intro hnil
  rw [hnil] at hne
  simp [List.isEmpty] at hne

theorem variants_entry_alnum (raw : Str) (v : Str)
    (h : v ∈ normalize_name_variants raw) :
    v ≠ [] ∧ ∀ c ∈ v, isAlnumCh c = true := by
  obtain ⟨⟨u, _, hv⟩, hne⟩ := variants_mem_struct raw v h
  refine ⟨hne, ?_⟩
  intro c hc
  rw [hv] at hc
  exact (List.mem_filter.mp hc).2

theorem variants_nil : normalize_name_variants [] = [] := by with_unfolding_all rfl

/-!  Length lemmas along the normalization pipeline. -/

theorem takeWhile_dropWhile_length (p : Nat → Bool) (l : List Nat) :
    (l.takeWhile p).length + (l.dropWhile p).length = l.length := by
  induction l with
  | nil => simp
  | cons x t ih =>
      by_cases hx : p x = true
      · simp only [List.takeWhile_cons, List.dropWhile_cons, hx, if_true,
          List.length_cons]
        omega
      · rw [Bool.not_eq_true] at hx
        simp only [List.takeWhile_cons, List.dropWhile_cons, hx]
        simp

theorem dropWhile_len_le (p : Nat → Bool) (l : List Nat) :
    (l.dropWhile p).length ≤ l.length := by
  induction l with
  | nil => simp [List.dropWhile]
  | cons x t ih =>
      simp only [List.dropWhile]
      by_cases hx : p x = true
      · simp only [hx]
        exact Nat.le_trans ih (Nat.le_succ _)
      · simp only [Bool.not_eq_true] at hx
        simp [hx]

theorem mergeFold_length_le (p : Nat → Bool) (s : Str) :
    (s.foldr
      (fun c acc =>
        if p c then (if acc.head? = some 32 then acc else 32 :: acc) else c :: acc)
      []).length ≤ s.length := by
  induction s with
  | nil => simp
  | cons c t ih =>
      simp only [List.foldr_cons]
      set r := t.foldr
        (fun c acc =>
          if p c then (if acc.head? = some 32 then acc else 32 :: acc) else c :: acc)
        [] with hr
      by_cases hc : p c = true
      · simp only [hc, if_true]
        by_cases hh : r.head? = some 32
        · simp only [hh, if_true, List.length_cons]
          exact Nat.le_trans ih (Nat.le_succ _)
        · simp only [hh, if_false, List.length_cons]
          omega
      · rw [Bool.not_eq_true] at hc
        simp only [hc]
        simp only [List.length_cons]
        have : (if false = true then
            (if r.head? = some 32 then r else 32 :: r) else c :: r) = c :: r := by
          simp
        rw [this]
        simp only [List.length_cons]
        omega

theorem subSep1Space_length_le (s : Str) : (subSep1Space s).length ≤ s.length :=
  mergeFold_length_le isSep1Ch s

theorem subWsSpace_length_le (s : Str) : (subWsSpace s).length ≤ s.length :=
  mergeFold_length_le isSpaceCh s

theorem pyStrip_length_le (s : Str) : (pyStrip s).length ≤ s.length := by
  unfold pyStrip
  calc ((s.dropWhile isSpaceCh).reverse.dropWhile isSpaceCh).reverse.length
      = ((s.dropWhile isSpaceCh).reverse.dropWhile isSpaceCh).length :=
        List.length_reverse _
    _ ≤ (s.dropWhile isSpaceCh).reverse.length := dropWhile_len_le _ _
    _ = (s.dropWhile isSpaceCh).length := List.length_reverse _
    _ ≤ s.length := dropWhile_len_le _ _

theorem collapse_repeats_length_le (s : Str) :
    (collapse_repeats s).length ≤ s.length := by
  have main : ∀ (n : Nat) (l : Str), l.length ≤ n →
      (collapse_repeats l).length ≤ l.length := by
    intro n
    induction n with
    | zero =>
        intro l hl
        have : l = [] := List.eq_nil_of_length_eq_zero (Nat.le_zero.mp hl)
        subst this
        rw [collapse_repeats]
    | succ n ih =>
        intro l hl
        match l with
        | [] => rw [collapse_repeats]
        | c :: rest =>
            rw [collapse_repeats]
            have hsplit : (rest.takeWhile (fun d => d == c)).length +
                (rest.dropWhile (fun d => d == c)).length = rest.length :=
              takeWhile_dropWhile_length _ rest
            have hrec : (collapse_repeats (rest.dropWhile (fun d => d == c))).length ≤
                (rest.dropWhile (fun d => d == c)).length := by
              apply ih
              have := dropWhile_len_le (fun d => d == c) rest
              simp only [List.length_cons] at hl
              omega
            simp only [List.length_append, List.length_replicate, List.length_cons]
            omega
  exact main s.length s (Nat.le_refl _)

theorem de_leet_length (s : Str) : (de_leet s).length = s.length :=
  List.length_map _ _

theorem remove_separators_length_le (s : Str) :
    (remove_separators s).length ≤ s.length := List.length_filter_le _ _

theorem stripped_numbers_length_le (s : Str) :
    (stripped_numbers s).length ≤ s.length := List.length_filter_le _ _

theorem cleanAlnum_length_le (s : Str) : (cleanAlnum s).length ≤ s.length :=
  List.length_filter_le _ _

theorem replace_homoglyphs_length (s : Str) :
    (replace_homoglyphs s).length = s.length := by
  unfold replace_homoglyphs
  generalize HOMOGLYPHS = tab
  induction tab generalizing s with
  | nil => simp
  | cons kv rest ih =>
      simp only [List.foldl_cons]
      rw [ih]
      simp

theorem nnvBase_length_le (raw : Str) :
    (nnvBase raw).length ≤ (pyUnidecode raw).length := by
  unfold nnvBase
  calc (pyStrip ((pyLower (replace_homoglyphs (pyUnidecode raw))).filter isKeptCh)).length
      ≤ ((pyLower (replace_homoglyphs (pyUnidecode raw))).filter isKeptCh).length :=
        pyStrip_length_le _
    _ ≤ (pyLower (replace_homoglyphs (pyUnidecode raw))).length :=
        List.length_filter_le _ _
    _ = (replace_homoglyphs (pyUnidecode raw)).length := List.length_map _ _
    _ = (pyUnidecode raw).length := replace_homoglyphs_length _

theorem nnvV1_length_le (base : Str) : (nnvV1 base).length ≤ base.length := by
  unfold nnvV1
  calc (subWsSpace (pyStrip (subSep1Space base))).length
      ≤ (pyStrip (subSep1Space base)).length := subWsSpace_length_le _
    _ ≤ (subSep1Space base).length := pyStrip_length_le _
    _ ≤ base.length := subSep1Space_length_le _

theorem nnvRaw12_length_le (base : Str) (u : Str) (h : u ∈ nnvRaw12 base) :
    u.length ≤ base.length := by
  have h1 : (nnvV1 base).length ≤ base.length := nnvV1_length_le base
  have h2 : (collapse_repeats (nnvV1 base)).length ≤ base.length :=
    Nat.le_trans (collapse_repeats_length_le _) h1
  have h3 : (remove_separators (collapse_repeats (nnvV1 base))).length ≤
      base.length := Nat.le_trans (remove_separators_length_le _) h2
  simp only [nnvRaw12, List.mem_cons, List.not_mem_nil, or_false] at h
  rcases h with h | h | h | h | h | h | h | h | h | h | h | h <;> subst h <;>
    first
      | exact h1
      | exact h2
      | exact h3
      | (rw [de_leet_length]; first | exact h1 | exact h2 | exact h3)
      | (refine Nat.le_trans (stripped_numbers_length_le _) ?_
         first
          | exact h1
          | exact h2
          | exact h3
          | (rw [de_leet_length]; first | exact h1 | exact h2 | exact h3))

/-- C4 counterexample input: `variants("a b") = ["ab", "ab"]` — the final
alphanumeric reduction maps the two distinct pre-reduction variants
`"a b"` and `"ab"` to the same string. -/
theorem variants_a_space_b :
    normalize_name_variants (strOf "a b") = [[97, 98], [97, 98]] := by
  with_unfolding_all rfl

/-- C4: the claim fails: the output of `normalize_name_variants` can
contain duplicate entries. -/
theorem C4_counterexample :
    ¬ (normalize_name_variants (strOf "a b")).Nodup := by
  rw [variants_a_space_b]
  simp

/-- C4 (amended): for every input string, `normalize_name_variants` returns
at most 12 entries, returns `[]` on `""`, every entry is a non-empty string
matching `^[a-z0-9]*$`, and the de-duplication (first occurrence wins)
applies to the pre-reduction variants — the final alphanumeric reduction can
re-introduce duplicates among the returned entries. -/
theorem C4_amended (raw : Str) :
    (normalize_name_variants raw).length ≤ 12 ∧
    normalize_name_variants [] = [] ∧
    (∀ v ∈ normalize_name_variants raw, v ≠ [] ∧ ∀ c ∈ v, isAlnumCh c = true) ∧
    (uniqKeep (nnvRaw12 (nnvBase raw))).Nodup :=
  ⟨variants_length_le raw, variants_nil,
    fun v hv => variants_entry_alnum raw v hv, uniqKeep_nodup _⟩

/-- C8 counterexample: the raw username `"ß"` (one codepoint) transliterates
to `"ss"`, so its single variant is strictly longer than the input. -/
theorem C8_counterexample :
    normalize_name_variants [223] = [[115, 115]] ∧
    ([115, 115] : Str).length > ([223] : Str).length := by
  constructor
  · with_unfolding_all rfl
  · simp

/-- C8 (amended): every variant is at most as long as the transliterated
(post-unidecode) input — hence at most as long as the input itself whenever
transliteration does not expand it, e.g. for pure-ASCII input — and the
output is deterministic given identical input. -/
theorem C8_amended (raw : Str) :
    (∀ v ∈ normalize_name_variants raw, v.length ≤ (pyUnidecode raw).length) ∧
    (∀ raw', raw = raw' → normalize_name_variants raw = normalize_name_variants raw') := by
  constructor
  · intro v hv
    obtain ⟨⟨u, hu, hvu⟩, _⟩ := variants_mem_struct raw v hv
    calc v.length = (cleanAlnum u).length := by rw [hvu]
      _ ≤ u.length := cleanAlnum_length_le u
      _ ≤ (nnvBase raw).length := nnvRaw12_length_le _ u hu
      _ ≤ (pyUnidecode raw).length := nnvBase_length_le raw
  · intro raw' h
    rw [h]

/-- Witness for C8 (amended) at a concrete input. -/
theorem C8_amended_witness :
    [97, 98, 99] ∈ normalize_name_variants (strOf "abc") ∧
    ([97, 98, 99] : Str).length ≤ (pyUnidecode (strOf "abc")).length := by
  constructor
  · with_unfolding_all decide
  · exact (C8_amended (strOf "abc")).1 [97, 98, 99] (by with_unfolding_all decide)

/-!  C3: the score validator. -/

theorem consLoop_iff (med tol : ℚ) (l : List ℚ) :
    consLoop med tol l = true ↔ ∀ v ∈ l, |v - med| / max |med| 1 ≤ tol := by
  induction l with
  | nil => simp [consLoop]
  | cons v rest ih =>
      unfold consLoop
      by_cases hv : tol < |v - med| / max |med| 1
      · simp only [hv, if_true]
        constructor
        · intro h; exact absurd h (by simp)
        · intro h
          exact absurd (h v (List.mem_cons_self v rest)) (not_le.mpr hv)
      · simp only [hv, if_false, ih]
        constructor
        · intro h w hw
          rcases List.mem_cons.mp hw with hw | hw
          · subst hw; exact not_lt.mp hv
          · exact h w hw
        · intro h w hw
          exact h w (List.mem_cons_of_mem v hw)

/-- C3: `scores_consistent` returns false on fewer than two scores, and
otherwise checks every score against the median with the zero-median rule as
specified; the four documented examples evaluate as stated. -/
theorem C3_theorem :
    (∀ (vals : List ℚ) (tol : ℚ),
      scores_consistent vals tol = true ↔
        (2 ≤ vals.length ∧
          ((pyMedian vals = 0 ∧ ∀ v ∈ vals, |v| ≤ tol) ∨
           (pyMedian vals ≠ 0 ∧
             ∀ v ∈ vals, |v - pyMedian vals| / max |pyMedian vals| 1 ≤ tol)))) ∧
    scores_consistent [100, 100] (3 / 10) = true ∧
    scores_consistent [100, 1000] (3 / 10) = false ∧
    scores_consistent [0, 0] (3 / 10) = true ∧
    scores_consistent [0, 1] (3 / 10) = false := by
  refine ⟨?_, ?_, ?_, ?_, ?_⟩
  · intro vals tol
    unfold scores_consistent
    by_cases hlen : vals.length < 2
    · simp only [hlen, if_true]
      constructor
      · intro h; exact absurd h (by simp)
      · intro h; omega
    · simp only [hlen, if_false]
      have hlen' : 2 ≤ vals.length := Nat.le_of_not_lt hlen
      by_cases hmed : pyMedian vals = 0
      · rw [if_pos hmed]
        rw [List.all_eq_true]
        constructor
        · intro h
          refine ⟨hlen', Or.inl ⟨hmed, fun v hv => ?_⟩⟩
          exact of_decide_eq_true (h v hv)
        · rintro ⟨-, h | h⟩
          · intro v hv
            exact decide_eq_true (h.2 v hv)
          · exact absurd hmed h.1
      · rw [if_neg hmed]
        rw [consLoop_iff]
        constructor
        · intro h
          exact ⟨hlen', Or.inr ⟨hmed, h⟩⟩
        · rintro ⟨-, h | h⟩
          · exact absurd h.1 hmed
          · exact h.2
  · with_unfolding_all rfl
  · with_unfolding_all rfl
  · with_unfolding_all rfl
  · with_unfolding_all rfl

/-!  C10: `numeric_score`. -/

theorem dropWhile_append_last (l : Str) (c : Nat) (hc : isSpaceCh c = false) :
    ∃ u, List.dropWhile isSpaceCh (l ++ [c]) = u ++ [c] := by
  induction l with
  | nil =>
      refine ⟨[], ?_⟩
      simp [List.dropWhile, hc]
  | cons x r ih =>
      by_cases hx : isSpaceCh x = true
      · simpa [List.dropWhile, hx] using ih
      · rw [Bool.not_eq_true] at hx
        refine ⟨x :: r, ?_⟩
        simp [List.dropWhile, hx]

theorem pyStrip_cons_nonspace (c : Nat) (t : Str) (hc : isSpaceCh c = false) :
    ∃ u, pyStrip (c :: t) = c :: u := by
  unfold pyStrip
  have h1 : List.dropWhile isSpaceCh (c :: t) = c :: t := by
    simp [List.dropWhile, hc]
  rw [h1]
  have h2 : (c :: t).reverse = t.reverse ++ [c] := by simp
  rw [h2]
  obtain ⟨u, hu⟩ := dropWhile_append_last t.reverse c hc
  rw [hu]
  exact ⟨u.reverse, by simp⟩

/-- Justification for the `arr`/`obj` cases of `numeric_score`: the float
grammar rejects any string whose stripped form begins with `[` (the first
character of Python's `str()` of a list); likewise `{` for a dict. -/
theorem pyFloatOfStr_bracket (c : Nat) (t : Str)
    (hc : c = 91 ∨ c = 123) : pyFloatOfStr (c :: t) = Option.none := by
  have hsp : isSpaceCh c = false := by rcases hc with h | h <;> subst h <;> rfl
  obtain ⟨u, hu⟩ := pyStrip_cons_nonspace c t hsp
  unfold pyFloatOfStr
  rw [hu]
  rcases hc with h | h <;> subst h <;> with_unfolding_all rfl

/-!  Window bounds of `find_longest_match` and the `[0, 1]` range of the
ratio. -/

theorem jlGet_of_JInv (blo bhi bnd : Nat) (m : List (Nat × Nat))
    (h : JInv blo bhi bnd m) (j : Nat) :
    jlGet m j = 0 ∨ (blo ≤ j ∧ j < bhi ∧ jlGet m j ≤ j + 1 - blo ∧ jlGet m j ≤ bnd) := by
  induction m with
  | nil => left; rfl
  | cons q rest ih =>
      unfold jlGet
      by_cases hq : (q.1 == j) = true
      · rw [@List.find?_cons_of_pos _ (fun p => p.1 == j) q rest hq]
        have hqj : q.1 = j := by simpa using hq
        have := h q (List.mem_cons_self q rest)
        right
        rw [← hqj]
        exact ⟨this.1, this.2.1, this.2.2.1, this.2.2.2⟩
      · rw [@List.find?_cons_of_neg _ (fun p => p.1 == j) q rest hq]
        have hrest : JInv blo bhi bnd rest := by
          intro p hp
          exact h p (List.mem_cons_of_mem q hp)
        have := ih hrest
        unfold jlGet at this
        exact this

theorem flmInner_inv (alo ahi i blo bhi bnd : Nat) (prev : List (Nat × Nat))
    (hialo : alo ≤ i) (hiahi : i < ahi) (hbnd : alo + bnd ≤ i)
    (hprev : JInv blo bhi bnd prev) :
    ∀ (js : List Nat) (acc : List (Nat × Nat)) (best : Nat × Nat × Nat),
      JInv blo bhi (bnd + 1) acc → BInv alo ahi blo bhi best →
        JInv blo bhi (bnd + 1) (flmInner i blo bhi prev js acc best).1 ∧
        BInv alo ahi blo bhi (flmInner i blo bhi prev js acc best).2 := by
  intro js
  induction js with
  | nil =>
      intro acc best hacc hbest
      exact ⟨hacc, hbest⟩
  | cons j js ih =>
      intro acc best hacc hbest
      unfold flmInner
      by_cases hjlo : j < blo
      · simp only [hjlo, if_true]
        exact ih acc best hacc hbest
      · simp only [hjlo, if_false]
        by_cases hjhi : bhi ≤ j
        · simp only [hjhi, if_true]
          exact ⟨hacc, hbest⟩
        · simp only [hjhi, if_false]
          have hjlo' : blo ≤ j := Nat.le_of_not_lt hjlo
          have hjhi' : j < bhi := Nat.lt_of_not_le hjhi
          have hk : jlGetPred prev j + 1 ≤ j + 1 - blo ∧ jlGetPred prev j + 1 ≤ bnd + 1 := by
            unfold jlGetPred
            by_cases hj0 : j = 0
            · simp only [hj0, if_true]
              omega
            · simp only [hj0, if_false]
              rcases jlGet_of_JInv blo bhi bnd prev hprev (j - 1) with h | h
              · rw [h]; omega
              · omega
          apply ih
          · intro p hp
            rcases List.mem_append.mp hp with hp | hp
            · exact hacc p hp
            · rw [List.mem_singleton] at hp
              subst hp
              exact ⟨hjlo', hjhi', hk.1, hk.2⟩
          · by_cases hlt : best.2.2 < jlGetPred prev j + 1
            · simp only [hlt, if_true]
              have hki : jlGetPred prev j + 1 ≤ i + 1 - alo := by
                have := hk.2
                omega
              have hkj : jlGetPred prev j + 1 ≤ j + 1 - blo := hk.1
              refine ⟨?_, ?_, Or.inl ⟨?_, ?_⟩⟩
              · show alo ≤ i + 1 - (jlGetPred prev j + 1)
                omega
              · show blo ≤ j + 1 - (jlGetPred prev j + 1)
                omega
              · show i + 1 - (jlGetPred prev j + 1) + (jlGetPred prev j + 1) ≤ ahi
                omega
              · show j + 1 - (jlGetPred prev j + 1) + (jlGetPred prev j + 1) ≤ bhi
                omega
            · simp only [hlt, if_false]
              exact hbest

theorem flmOuter_inv (a : Str) (m : List (Nat × List Nat)) (alo ahi blo bhi : Nat) :
    ∀ (n s : Nat) (j2len : List (Nat × Nat)) (best : Nat × Nat × Nat) (bnd : Nat),
      s + n ≤ ahi → alo ≤ s → alo + bnd ≤ s →
      JInv blo bhi bnd j2len → BInv alo ahi blo bhi best →
      BInv alo ahi blo bhi (flmOuter a m blo bhi (List.range' s n) j2len best) := by
  intro n
  induction n with
  | zero =>
      intro s j2len best bnd _ _ _ _ hbest
      simpa [flmOuter] using hbest
  | succ n ih =>
      intro s j2len best bnd hsn hs hbnd hj hbest
      rw [List.range'_succ]
      unfold flmOuter
      have hinner := flmInner_inv alo ahi s blo bhi bnd j2len hs (by omega) hbnd hj
        (b2jGet m (a.getD s 0)) [] best (by intro p hp; simp at hp) hbest
      exact ih (s + 1) _ _ (bnd + 1) (by omega) (by omega) (by omega) hinner.1 hinner.2

theorem extLeft_inv (a b : Str) (alo ahi blo bhi : Nat) :
    ∀ (bi bj k : Nat), BInv alo ahi blo bhi (bi, bj, k) →
      BInv alo ahi blo bhi (extLeft a b alo blo bi bj k) := by
  intro bi
  induction bi using Nat.strong_induction_on with
  | _ bi ih =>
      intro bj k hb
      unfold BInv at hb
      dsimp only at hb
      rw [extLeft]
      by_cases h : alo < bi ∧ blo < bj ∧ a.getD (bi - 1) 0 = b.getD (bj - 1) 0
      · simp only [h, dif_pos]
        apply ih (bi - 1) (by omega)
        obtain ⟨h1, h2, h3⟩ := hb
        unfold BInv
        dsimp only
        refine ⟨by omega, by omega, ?_⟩
        rcases h3 with h3 | h3
        · exact Or.inl ⟨by omega, by omega⟩
        · exact Or.inl ⟨by omega, by omega⟩
      · simp only [h, dif_neg, not_false_iff]
        unfold BInv
        dsimp only
        exact hb

theorem extRightSize_inv (a b : Str) (ahi bhi bi bj : Nat) (alo blo : Nat)
    (halo : alo ≤ bi) (hblo : blo ≤ bj) :
    ∀ (fuel k : Nat), fuel = ahi - (bi + k) →
      (bi + k ≤ ahi ∧ bj + k ≤ bhi ∨ (k = 0 ∧ bi = alo ∧ bj = blo)) →
      (bi + extRightSize a b ahi bhi bi bj k ≤ ahi ∧
        bj + extRightSize a b ahi bhi bi bj k ≤ bhi) ∨
        (extRightSize a b ahi bhi bi bj k = k ∧ k = 0 ∧ bi = alo ∧ bj = blo) := by
  intro fuel
  induction fuel using Nat.strong_induction_on with
  | _ fuel ih =>
      intro k hfuel hk
      rw [extRightSize]
      by_cases h : bi + k < ahi ∧ bj + k < bhi ∧ a.getD (bi + k) 0 = b.getD (bj + k) 0
      · simp only [h, dif_pos]
        have := ih (ahi - (bi + (k + 1))) (by omega) (k + 1) rfl
          (Or.inl ⟨by omega, by omega⟩)
        rcases this with h' | h'
        · exact Or.inl h'
        · exact Or.inl ⟨by omega, by omega⟩
      · simp only [h, dif_neg, not_false_iff]
        rcases hk with hk | hk
        · exact Or.inl hk
        · exact Or.inr ⟨by simp, hk⟩

/-- Any non-empty block returned by `find_longest_match` lies inside the
window (the fact justifying the redundant guard conjuncts in `matchSum`). -/
theorem flm_bounds (a b : Str) (m : List (Nat × List Nat)) (alo ahi blo bhi : Nat)
    (hk : (find_longest_match a b m alo ahi blo bhi).2.2 ≠ 0) :
    alo ≤ (find_longest_match a b m alo ahi blo bhi).1 ∧
    blo ≤ (find_longest_match a b m alo ahi blo bhi).2.1 ∧
    (find_longest_match a b m alo ahi blo bhi).1 +
      (find_longest_match a b m alo ahi blo bhi).2.2 ≤ ahi ∧
    (find_longest_match a b m alo ahi blo bhi).2.1 +
      (find_longest_match a b m alo ahi blo bhi).2.2 ≤ bhi := by
  unfold find_longest_match at hk ⊢
  have hd : BInv alo ahi blo bhi
      (flmOuter a m blo bhi (List.range' alo (ahi - alo)) [] (alo, blo, 0)) := by
    by_cases hwin : alo ≤ ahi
    · exact flmOuter_inv a m alo ahi blo bhi (ahi - alo) alo [] (alo, blo, 0) 0
        (by omega) (by omega) (by omega) (by intro p hp; simp at hp)
        ⟨Nat.le_refl _, Nat.le_refl _, Or.inr ⟨rfl, rfl, rfl⟩⟩
    · have h0 : ahi - alo = 0 := by omega
      rw [h0]
      exact (⟨Nat.le_refl _, Nat.le_refl _, Or.inr ⟨rfl, rfl, rfl⟩⟩ :
        BInv alo ahi blo bhi (alo, blo, 0))
  set d := flmOuter a m blo bhi (List.range' alo (ahi - alo)) [] (alo, blo, 0) with hdd
  have he : BInv alo ahi blo bhi (extLeft a b alo blo d.1 d.2.1 d.2.2) :=
    extLeft_inv a b alo ahi blo bhi d.1 d.2.1 d.2.2 hd
  set e := extLeft a b alo blo d.1 d.2.1 d.2.2 with hee
  obtain ⟨he1, he2, he3⟩ := he
  have hr := extRightSize_inv a b ahi bhi e.1 e.2.1 alo blo he1 he2
    (ahi - (e.1 + e.2.2)) e.2.2 rfl (by
      rcases he3 with h | h
      · exact Or.inl h
      · exact Or.inr h)
  dsimp only at hk ⊢
  rcases hr with hr | hr
  · exact ⟨he1, he2, hr.1, hr.2⟩
  · exact absurd (hr.1.trans hr.2.1) hk

/-- The total matched size never exceeds either window size. -/
theorem matchSum_le (a b : Str) (m : List (Nat × List Nat)) :
    ∀ (fuel alo ahi blo bhi : Nat), (ahi - alo) + (bhi - blo) ≤ fuel →
      matchSum a b m alo ahi blo bhi ≤ min (ahi - alo) (bhi - blo) := by
  intro fuel
  induction fuel using Nat.strong_induction_on with
  | _ fuel ih =>
      intro alo ahi blo bhi hfuel
      rw [matchSum]
      by_cases hk : (find_longest_match a b m alo ahi blo bhi).2.2 = 0
      · simp only [hk, dif_pos]
        omega
      · simp only [hk, dif_neg, not_false_iff]
        obtain ⟨hb1, hb2, hb3, hb4⟩ := flm_bounds a b m alo ahi blo bhi hk
        simp only [dite_eq_ite]
        set t := find_longest_match a b m alo ahi blo bhi with ht
        have hL : (if alo < t.1 ∧ blo < t.2.1 ∧ t.1 + t.2.2 ≤ ahi ∧
              t.2.1 + t.2.2 ≤ bhi then
            matchSum a b m alo t.1 blo t.2.1 else 0) ≤ t.1 - alo ∧
            (if alo < t.1 ∧ blo < t.2.1 ∧ t.1 + t.2.2 ≤ ahi ∧
              t.2.1 + t.2.2 ≤ bhi then
            matchSum a b m alo t.1 blo t.2.1 else 0) ≤ t.2.1 - blo := by
          by_cases hl : alo < t.1 ∧ blo < t.2.1 ∧ t.1 + t.2.2 ≤ ahi ∧
              t.2.1 + t.2.2 ≤ bhi
          · simp only [hl, if_true]
            have := ih ((t.1 - alo) + (t.2.1 - blo)) (by omega) alo t.1 blo t.2.1
              (by omega)
            exact ⟨Nat.le_trans this (Nat.min_le_left _ _),
              Nat.le_trans this (Nat.min_le_right _ _)⟩
          · simp only [hl, if_false]
            omega
        have hR : (if t.1 + t.2.2 < ahi ∧ t.2.1 + t.2.2 < bhi ∧ alo ≤ t.1 ∧
              blo ≤ t.2.1 then
            matchSum a b m (t.1 + t.2.2) ahi (t.2.1 + t.2.2) bhi else 0) ≤
              ahi - (t.1 + t.2.2) ∧
            (if t.1 + t.2.2 < ahi ∧ t.2.1 + t.2.2 < bhi ∧ alo ≤ t.1 ∧
              blo ≤ t.2.1 then
            matchSum a b m (t.1 + t.2.2) ahi (t.2.1 + t.2.2) bhi else 0) ≤
              bhi - (t.2.1 + t.2.2) := by
          by_cases hr : t.1 + t.2.2 < ahi ∧ t.2.1 + t.2.2 < bhi ∧ alo ≤ t.1 ∧
              blo ≤ t.2.1
          · simp only [hr, if_true]
            have := ih ((ahi - (t.1 + t.2.2)) + (bhi - (t.2.1 + t.2.2)))
              (by omega) (t.1 + t.2.2) ahi (t.2.1 + t.2.2) bhi (by omega)
            exact ⟨Nat.le_trans this (Nat.min_le_left _ _),
              Nat.le_trans this (Nat.min_le_right _ _)⟩
          · simp only [hr, if_false]
            omega
        have hL1 := hL.1
        have hL2 := hL.2
        have hR1 := hR.1
        have hR2 := hR.2
        refine Nat.le_min.mpr ⟨by omega, by omega⟩

/-- The ratio model stays in `[0, 1]`. -/
theorem smRatio_bounds (a b : Str) : 0 ≤ smRatio a b ∧ smRatio a b ≤ 1 := by
  unfold smRatio
  by_cases hT : a.length + b.length = 0
  · simp [hT]
  · simp only [hT, if_false]
    have hM := matchSum_le a b (b2jPurged b)
      ((a.length - 0) + (b.length - 0)) 0 a.length 0 b.length (by omega)
    have hM' : 2 * matchSum a b (b2jPurged b) 0 a.length 0 b.length ≤
        a.length + b.length := by
      have h1 : matchSum a b (b2jPurged b) 0 a.length 0 b.length ≤ a.length := by
        have := hM; omega
      have h2 : matchSum a b (b2jPurged b) 0 a.length 0 b.length ≤ b.length := by
        have := hM; omega
      omega
    have hTpos : (0 : ℚ) < (a.length + b.length : ℚ) := by
      have : 0 < a.length + b.length := Nat.pos_of_ne_zero hT
      exact_mod_cast this
    constructor
    · apply div_nonneg
      · positivity
      · exact le_of_lt hTpos
    · rw [div_le_one hTpos]
      calc (2 * (matchSum a b (b2jPurged b) 0 a.length 0 b.length : ℚ))
          = ((2 * matchSum a b (b2jPurged b) 0 a.length 0 b.length : ℕ) : ℚ) := by
            push_cast; ring
        _ ≤ ((a.length + b.length : ℕ) : ℚ) := by exact_mod_cast hM'
        _ = (a.length : ℚ) + b.length := by push_cast; ring

/-- `name_similarity` stays in `[0, 1]`. -/
theorem name_similarity_bounds (a b : Str) :
    0 ≤ name_similarity a b ∧ name_similarity a b ≤ 1 := by
  unfold name_similarity
  by_cases h : a.isEmpty || b.isEmpty
  · simp [h]
  · simp only [h, if_false]
    exact smRatio_bounds a b

/-!  The short-circuiting scan of `max_variant_similarity` versus the true
cross-product maximum. -/

theorem mcFold_nonneg (ps : List (Str × Str)) :
    0 ≤ ps.foldr (fun p acc => max (name_similarity p.1 p.2) acc) 0 := by
  induction ps with
  | nil => simp
  | cons p rest ih =>
      simp only [List.foldr_cons]
      exact le_trans ih (le_max_right _ _)

theorem mcFold_le_one (ps : List (Str × Str)) :
    ps.foldr (fun p acc => max (name_similarity p.1 p.2) acc) 0 ≤ 1 := by
  induction ps with
  | nil => simp
  | cons p rest ih =>
      simp only [List.foldr_cons]
      exact max_le (name_similarity_bounds p.1 p.2).2 ih

theorem mcFold_ge_mem (ps : List (Str × Str)) (p : Str × Str) (hp : p ∈ ps) :
    name_similarity p.1 p.2 ≤
      ps.foldr (fun q acc => max (name_similarity q.1 q.2) acc) 0 := by
  induction ps with
  | nil => simp at hp
  | cons q rest ih =>
      simp only [List.foldr_cons]
      rcases List.mem_cons.mp hp with hp | hp
      · subst hp; exact le_max_left _ _
      · exact le_trans (ih hp) (le_max_right _ _)

theorem scan_ge_best (ps : List (Str × Str)) :
    ∀ best : ℚ, best ≤ scanPairs ps best := by
  induction ps with
  | nil => intro best; exact le_refl _
  | cons p rest ih =>
      intro best
      unfold scanPairs
      by_cases h1 : best < name_similarity p.1 p.2
      · simp only [h1, if_true]
        by_cases h2 : (999 : ℚ) / 1000 ≤ name_similarity p.1 p.2
        · simp only [h2, if_true]
          exact le_of_lt h1
        · simp only [h2, if_false]
          exact le_trans (le_of_lt h1) (ih _)
      · simp only [h1, if_false]
        exact ih best

theorem scan_le_max (ps : List (Str × Str)) :
    ∀ best : ℚ, scanPairs ps best ≤
      max best (ps.foldr (fun p acc => max (name_similarity p.1 p.2) acc) 0) := by
  induction ps with
  | nil =>
      intro best
      exact le_max_left _ _
  | cons p rest ih =>
      intro best
      unfold scanPairs
      simp only [List.foldr_cons]
      by_cases h1 : best < name_similarity p.1 p.2
      · simp only [h1, if_true]
        by_cases h2 : (999 : ℚ) / 1000 ≤ name_similarity p.1 p.2
        · simp only [h2, if_true]
          exact le_trans (le_max_left _ _) (le_max_right _ _)
        · simp only [h2, if_false]
          refine le_trans (ih _) ?_
          exact max_le (le_trans (le_max_left _ _) (le_max_right _ _))
            (le_trans (le_max_right _ _) (le_max_right _ _))
      · simp only [h1, if_false]
        refine le_trans (ih best) ?_
        exact max_le (le_max_left _ _)
          (le_trans (le_max_right _ _) (le_max_right _ _))

theorem scan_eq_max_of_small (ps : List (Str × Str)) :
    ∀ best : ℚ, 0 ≤ best →
      max best (ps.foldr (fun p acc => max (name_similarity p.1 p.2) acc) 0) <
        (999 : ℚ) / 1000 →
      scanPairs ps best =
        max best (ps.foldr (fun p acc => max (name_similarity p.1 p.2) acc) 0) := by
  induction ps with
  | nil =>
      intro best h0 _
      simp only [List.foldr_nil]
      exact (max_eq_left h0).symm
  | cons p rest ih =>
      intro best h0 hsmall
      unfold scanPairs
      simp only [List.foldr_cons] at hsmall ⊢
      have hns : name_similarity p.1 p.2 < (999 : ℚ) / 1000 :=
        lt_of_le_of_lt (le_trans (le_max_left _ _) (le_max_right _ _)) hsmall
      by_cases h1 : best < name_similarity p.1 p.2
      · simp only [h1, if_true, not_le.mpr hns, if_false]
        have hrec := ih (name_similarity p.1 p.2) (name_similarity_bounds p.1 p.2).1
          (lt_of_le_of_lt
            (max_le (le_trans (le_max_left _ _) (le_max_right _ _))
              (le_trans (le_max_right _ _) (le_max_right _ _))) hsmall)
        rw [hrec]
        exact (max_eq_right (le_trans (le_of_lt h1) (le_max_left _ _))).symm
      · simp only [h1, if_false]
        have hns_le : name_similarity p.1 p.2 ≤ best := le_of_not_lt h1
        have hrec := ih best h0
          (lt_of_le_of_lt
            (max_le (le_max_left _ _)
              (le_trans (le_max_right _ _) (le_max_right _ _))) hsmall)
        rw [hrec, ← max_assoc, max_eq_left hns_le]

theorem scan_ge_999 (ps : List (Str × Str)) :
    ∀ best : ℚ, 0 ≤ best → best < (999 : ℚ) / 1000 →
      (999 : ℚ) / 1000 ≤
        max best (ps.foldr (fun p acc => max (name_similarity p.1 p.2) acc) 0) →
      (999 : ℚ) / 1000 ≤ scanPairs ps best := by
  induction ps with
  | nil =>
      intro best h0 hlt hbig
      simp only [List.foldr_nil] at hbig
      rw [max_eq_left h0] at hbig
      exact absurd hbig (not_le.mpr hlt)
  | cons p rest ih =>
      intro best h0 hlt hbig
      unfold scanPairs
      simp only [List.foldr_cons] at hbig
      by_cases h1 : best < name_similarity p.1 p.2
      · simp only [h1, if_true]
        by_cases h2 : (999 : ℚ) / 1000 ≤ name_similarity p.1 p.2
        · simp only [h2, if_true]
        · simp only [h2, if_false]
          push_neg at h2
          have hf : (999 : ℚ) / 1000 ≤
              rest.foldr (fun p acc => max (name_similarity p.1 p.2) acc) 0 := by
            rcases le_max_iff.mp hbig with h | h
            · exact absurd h (not_le.mpr hlt)
            · rcases le_max_iff.mp h with h | h
              · exact absurd h (not_le.mpr h2)
              · exact h
          exact ih (name_similarity p.1 p.2) (name_similarity_bounds p.1 p.2).1 h2
            (le_trans hf (le_max_right _ _))
      · simp only [h1, if_false]
        have hns_le : name_similarity p.1 p.2 ≤ best := le_of_not_lt h1
        have hf : (999 : ℚ) / 1000 ≤
            rest.foldr (fun p acc => max (name_similarity p.1 p.2) acc) 0 := by
          rcases le_max_iff.mp hbig with h | h
          · exact absurd h (not_le.mpr hlt)
          · rcases le_max_iff.mp h with h | h
            · exact absurd (le_trans h hns_le) (not_le.mpr hlt)
            · exact h
        exact ih best h0 hlt (le_trans hf (le_max_right _ _))

theorem allPairs_nil_left (a b : Str) (h : normalize_name_variants a = []) :
    allPairs a b = [] := by
  unfold allPairs
  rw [h]
  rfl

theorem allPairs_nil_right (a b : Str) (h : normalize_name_variants b = []) :
    allPairs a b = [] := by
  unfold allPairs
  rw [h]
  induction normalize_name_variants a with
  | nil => rfl
  | cons x t ih => simpa using ih

/-- C1 (amended): `max_variant_similarity` always lies in `[0, 1]` and never
exceeds the cross-product maximum; it equals that maximum whenever the
maximum is below the 0.999 short-circuit threshold, and otherwise returns
the first ratio found at or above 0.999 (hence a value in
`[0.999, maximum]`, possibly below the maximum); a missing/empty name or an
empty variant set yields 0.0. -/
theorem C1_amended (a b : Str) :
    (0 ≤ max_variant_similarity a b ∧ max_variant_similarity a b ≤ 1) ∧
    max_variant_similarity a b ≤ maxCrossRatio a b ∧
    (maxCrossRatio a b < (999 : ℚ) / 1000 →
      max_variant_similarity a b = maxCrossRatio a b) ∧
    ((999 : ℚ) / 1000 ≤ maxCrossRatio a b →
      (999 : ℚ) / 1000 ≤ max_variant_similarity a b) ∧
    ((normalize_name_variants a = [] ∨ normalize_name_variants b = []) →
      max_variant_similarity a b = 0) := by
  unfold max_variant_similarity maxCrossRatio
  set ps := allPairs a b with hps
  have hmax0 : max (0 : ℚ)
      (ps.foldr (fun p acc => max (name_similarity p.1 p.2) acc) 0) =
      ps.foldr (fun p acc => max (name_similarity p.1 p.2) acc) 0 :=
    max_eq_right (mcFold_nonneg ps)
  refine ⟨⟨scan_ge_best ps 0, ?_⟩, ?_, ?_, ?_, ?_⟩
  · exact le_trans (scan_le_max ps 0) (by rw [hmax0]; exact mcFold_le_one ps)
  · exact le_trans (scan_le_max ps 0) (le_of_eq hmax0)
  · intro hsmall
    rw [scan_eq_max_of_small ps 0 (le_refl 0) (by rw [hmax0]; exact hsmall)]
    exact hmax0
  · intro hbig
    exact scan_ge_999 ps 0 (le_refl 0) (by norm_num)
      (by rw [hmax0]; exact hbig)
  · intro hemp
    have : ps = [] := by
      rcases hemp with h | h
      · rw [hps]; exact allPairs_nil_left a b h
      · rw [hps]; exact allPairs_nil_right a b h
    rw [this]
    rfl

/-- Witness for C1 (amended): at a pair with small cross-product maximum the
scan returns exactly the maximum. -/
theorem C1_amended_witness :
    maxCrossRatio (strOf "ab") (strOf "xy") < (999 : ℚ) / 1000 ∧
    max_variant_similarity (strOf "ab") (strOf "xy") =
      maxCrossRatio (strOf "ab") (strOf "xy") := by
  constructor
  · exact of_decide_eq_true (by with_unfolding_all rfl)
  · exact (C1_amended (strOf "ab") (strOf "xy")).2.2.1
      (of_decide_eq_true (by with_unfolding_all rfl))

/-- C6 counterexample: `max_variant_similarity` is not symmetric — for the
single-variant names `"xyuvsm"` and `"uvmxy"` the underlying
Ratcliff/Obershelp matching is order-dependent (4/11 one way, 6/11 the
other). -/
theorem C6_counterexample :
    max_variant_similarity (strOf "xyuvsm") (strOf "uvmxy") ≠
      max_variant_similarity (strOf "uvmxy") (strOf "xyuvsm") :=
  of_decide_eq_true (by with_unfolding_all rfl)

/-- C6 (amended): the similarity score is not symmetric in general (see the
counterexample); both orientations always lie in `[0, 1]`. -/
theorem C6_amended (a b : Str) :
    (0 ≤ max_variant_similarity a b ∧ max_variant_similarity a b ≤ 1) ∧
    (0 ≤ max_variant_similarity b a ∧ max_variant_similarity b a ≤ 1) := by
  constructor
  · unfold max_variant_similarity
    refine ⟨scan_ge_best _ 0, ?_⟩
    refine le_trans (scan_le_max _ 0) ?_
    rw [max_eq_right (mcFold_nonneg _)]
    exact mcFold_le_one _
  · unfold max_variant_similarity
    refine ⟨scan_ge_best _ 0, ?_⟩
    refine le_trans (scan_le_max _ 0) ?_
    rw [max_eq_right (mcFold_nonneg _)]
    exact mcFold_le_one _

/-- C5 counterexample: `"."` is a non-empty raw username whose variant set
is empty, so its self-similarity is 0.0, not 1.0. -/
theorem C5_counterexample :
    strOf "." ≠ ([] : Str) ∧
    normalize_name_variants (strOf ".") = [] ∧
    max_variant_similarity (strOf ".") (strOf ".") ≠ 1 := by
  refine ⟨?_, ?_, ?_⟩
  · exact of_decide_eq_true (by with_unfolding_all rfl)
  · exact of_decide_eq_true (by with_unfolding_all rfl)
  · exact of_decide_eq_true (by with_unfolding_all rfl)

/-!  Cluster-builder lemmas (C2, C9). -/

theorem mvs_nil_left (x : Str) : max_variant_similarity [] x = 0 := by
  unfold max_variant_similarity
  rw [allPairs_nil_left [] x variants_nil]
  rfl

theorem mvs_nil_right (x : Str) : max_variant_similarity x [] = 0 := by
  unfold max_variant_similarity
  rw [allPairs_nil_right x [] variants_nil]
  rfl

theorem nameMapGet_of_mem (entries : List (Str × Str))
    (hnd : (entries.map Prod.fst).Nodup) (uid nm : Str)
    (h : (uid, nm) ∈ entries) : nameMapGet entries uid = nm := by
  induction entries with
  | nil => simp at h
  | cons e rest ih =>
      simp only [List.map_cons, List.nodup_cons] at hnd
      unfold nameMapGet
      by_cases he : (e.1 == uid) = true
      · rw [@List.find?_cons_of_pos _ (fun p => p.1 == uid) e rest he]
        have he' : e.1 = uid := by simpa using he
        rcases List.mem_cons.mp h with h | h
        · rw [← h]
          rfl
        · exfalso
          apply hnd.1
          rw [he']
          exact List.mem_map.mpr ⟨(uid, nm), h, rfl⟩
      · rw [@List.find?_cons_of_neg _ (fun p => p.1 == uid) e rest he]
        have he' : e.1 ≠ uid := by simpa using he
        rcases List.mem_cons.mp h with h | h
        · exfalso; apply he'; rw [← h]
        · exact ih hnd.2 h

theorem clusterLoopAll_subset (entries : List (Str × Str)) (thr : ℚ) :
    ∀ (todo : List (Str × Str)) (un : List Str),
      ∀ g ∈ clusterLoopAll entries thr todo un, ∀ x ∈ g, x ∈ un := by
  intro todo
  induction todo with
  | nil => intro un g hg; simp [clusterLoopAll] at hg
  | cons e rest ih =>
      intro un g hg x hx
      obtain ⟨uid, nm⟩ := e
      unfold clusterLoopAll at hg
      by_cases hu : uid ∈ un
      · simp only [hu, if_true] at hg
        rcases List.mem_cons.mp hg with hg | hg
        · subst hg
          rcases List.mem_cons.mp hx with hx | hx
          · subst hx; exact hu
          · exact (un.erase_subset uid) (List.mem_of_mem_filter hx)
        · have := ih _ g hg x hx
          exact (un.erase_subset uid) (List.mem_of_mem_filter this)
      · simp only [hu, if_false] at hg
        exact ih un g hg x hx

theorem clusterLoopAll_nodup_un (un : List Str) (hnd : un.Nodup) (uid : Str)
    (q : Str → Prop) [DecidablePred q] :
    ((un.erase uid).filter (fun o => decide (q o))).Nodup :=
  List.Nodup.filter _ (List.Nodup.erase uid hnd)

theorem clusterLoopAll_disjoint (entries : List (Str × Str)) (thr : ℚ) :
    ∀ (todo : List (Str × Str)) (un : List Str), un.Nodup →
      List.Pairwise List.Disjoint (clusterLoopAll entries thr todo un) := by
  intro todo
  induction todo with
  | nil => intro un _; simp [clusterLoopAll]
  | cons e rest ih =>
      intro un hnd
      obtain ⟨uid, nm⟩ := e
      unfold clusterLoopAll
      by_cases hu : uid ∈ un
      · simp only [hu, if_true]
        set matched := (un.erase uid).filter
          (fun other => thr ≤ max_variant_similarity nm (nameMapGet entries other))
          with hm
        set un2 := (un.erase uid).filter
          (fun other => ¬ thr ≤ max_variant_similarity nm (nameMapGet entries other))
          with hu2
        constructor
        · intro g' hg' x hx hxg'
          have hxu2 : x ∈ un2 :=
            clusterLoopAll_subset entries thr rest un2 g' hg' x hxg'
          rcases List.mem_cons.mp hx with hx | hx
          · subst hx
            have : x ∈ un.erase x := List.mem_of_mem_filter hxu2
            exact (List.Nodup.not_mem_erase hnd) this
          · have h1 := List.of_mem_filter hx
            have h2 := List.of_mem_filter hxu2
            simp only [decide_eq_true_eq] at h1 h2
            exact h2 h1
        · apply ih
          exact List.Nodup.filter _ (List.Nodup.erase uid hnd)
      · simp only [hu, if_false]
        exact ih un hnd

theorem clusterLoop_eq_filter (entries : List (Str × Str)) (thr : ℚ)
    (min_group : Nat) :
    ∀ (todo : List (Str × Str)) (un : List Str),
      clusterLoop entries thr min_group todo un =
        (clusterLoopAll entries thr todo un).filter
          (fun g => decide (min_group ≤ g.length)) := by
  intro todo
  induction todo with
  | nil => intro un; rfl
  | cons e rest ih =>
      intro un
      obtain ⟨uid, nm⟩ := e
      unfold clusterLoop clusterLoopAll
      by_cases hu : uid ∈ un
      · simp only [hu, if_true]
        set grp := uid :: (un.erase uid).filter
          (fun other => thr ≤ max_variant_similarity nm (nameMapGet entries other))
          with hg
        set un2 := (un.erase uid).filter
          (fun other => ¬ thr ≤ max_variant_similarity nm (nameMapGet entries other))
          with hu2
        by_cases hlen : min_group ≤ grp.length
        · rw [if_pos hlen, List.filter_cons]
          have hd : decide (min_group ≤ grp.length) = true := decide_eq_true hlen
          rw [hd]
          simp only [if_true]
          rw [ih un2]
        · rw [if_neg hlen, List.filter_cons]
          have hd : decide (min_group ≤ grp.length) = false := by
            simpa using hlen
          rw [hd]
          simp only [Bool.false_eq_true, if_false]
          exact ih un2
      · simp only [hu, if_false]
        exact ih un

theorem clusterLoopAll_head_sim (entries : List (Str × Str)) (thr : ℚ) :
    ∀ (todo : List (Str × Str)) (un : List Str),
      ∀ g ∈ clusterLoopAll entries thr todo un,
        ∃ uid nm rest, (uid, nm) ∈ todo ∧ g = uid :: rest ∧
          ∀ m ∈ rest, thr ≤ max_variant_similarity nm (nameMapGet entries m) := by
  intro todo
  induction todo with
  | nil => intro un g hg; simp [clusterLoopAll] at hg
  | cons e rest ih =>
      intro un g hg
      obtain ⟨uid, nm⟩ := e
      unfold clusterLoopAll at hg
      by_cases hu : uid ∈ un
      · simp only [hu, if_true] at hg
        rcases List.mem_cons.mp hg with hg | hg
        · refine ⟨uid, nm, _, List.mem_cons_self _ _, hg, ?_⟩
          intro m hm
          have := List.of_mem_filter hm
          simpa using this
        · obtain ⟨uid', nm', rest', hmem, hrest⟩ := ih _ g hg
          exact ⟨uid', nm', rest', List.mem_cons_of_mem _ hmem, hrest⟩
      · simp only [hu, if_false] at hg
        obtain ⟨uid', nm', rest', hmem, hrest⟩ := ih un g hg
        exact ⟨uid', nm', rest', List.mem_cons_of_mem _ hmem, hrest⟩

theorem clusterEntries_keys (users : List (Str × Account)) :
    (clusterEntries users).map Prod.fst = users.map Prod.fst := by
  unfold clusterEntries
  rw [List.map_map]
  rfl

theorem clusterLoop_subset (entries : List (Str × Str)) (thr : ℚ) (mg : Nat)
    (todo : List (Str × Str)) (un : List Str) (g : List Str)
    (hg : g ∈ clusterLoop entries thr mg todo un) : ∀ x ∈ g, x ∈ un := by
  rw [clusterLoop_eq_filter] at hg
  exact clusterLoopAll_subset entries thr todo un g (List.mem_of_mem_filter hg)

theorem assoc_val_unique {β : Type} (l : List (Str × β)) (hnd : (l.map Prod.fst).Nodup)
    (k : Str) (v1 v2 : β) (h1 : (k, v1) ∈ l) (h2 : (k, v2) ∈ l) : v1 = v2 := by
  induction l with
  | nil => simp at h1
  | cons e rest ih =>
      simp only [List.map_cons, List.nodup_cons] at hnd
      rcases List.mem_cons.mp h1 with h1 | h1 <;>
        rcases List.mem_cons.mp h2 with h2 | h2
      · rw [← h1] at h2; exact (Prod.mk.injEq _ _ _ _).mp h2.symm |>.2
      · exfalso
        apply hnd.1
        rw [← h1]
        exact List.mem_map.mpr ⟨(k, v2), h2, rfl⟩
      · exfalso
        apply hnd.1
        rw [← h2]
        exact List.mem_map.mpr ⟨(k, v1), h1, rfl⟩
      · exact ih hnd.2 h1 h2

/-- C2: for every input, threshold and minimum size, and distinct account
ids, the cluster builder returns (a, b) groups headed by their seed whose
other members all have similarity at least the threshold to the seed's
username, (c) only groups of at least the minimum size, with (3, 4) all
candidate groups — kept or discarded — pairwise disjoint, so members of a
discarded undersized group are never re-queued into a later group, and (5)
the kept groups being exactly the large-enough candidate groups; the result
is deterministic for a fixed input order. -/
theorem C2_theorem (users : List (Str × Account)) (name_threshold : ℚ)
    (min_group : Nat) (hnd : (users.map Prod.fst).Nodup) :
    (∀ g ∈ cluster_similar_users users name_threshold min_group,
      min_group ≤ g.length) ∧
    (∀ g ∈ cluster_similar_users users name_threshold min_group,
      ∃ seed rest, g = seed :: rest ∧
        ∀ m ∈ rest, name_threshold ≤ max_variant_similarity
          (nameMapGet (clusterEntries users) seed)
          (nameMapGet (clusterEntries users) m)) ∧
    List.Pairwise List.Disjoint
      (cluster_similar_users users name_threshold min_group) ∧
    List.Pairwise List.Disjoint
      (clusterLoopAll (clusterEntries users) name_threshold
        (clusterEntries users) ((clusterEntries users).map Prod.fst)) ∧
    cluster_similar_users users name_threshold min_group =
      (clusterLoopAll (clusterEntries users) name_threshold
        (clusterEntries users) ((clusterEntries users).map Prod.fst)).filter
        (fun g => decide (min_group ≤ g.length)) ∧
    (∀ users', users = users' →
      cluster_similar_users users name_threshold min_group =
        cluster_similar_users users' name_threshold min_group) := by
  have hkeys : ((clusterEntries users).map Prod.fst).Nodup := by
    rw [clusterEntries_keys]; exact hnd
  have hfilter : cluster_similar_users users name_threshold min_group =
      (clusterLoopAll (clusterEntries users) name_threshold
        (clusterEntries users) ((clusterEntries users).map Prod.fst)).filter
        (fun g => decide (min_group ≤ g.length)) := by
    unfold cluster_similar_users
    exact clusterLoop_eq_filter _ _ _ _ _
  have hdisjAll : List.Pairwise List.Disjoint
      (clusterLoopAll (clusterEntries users) name_threshold
        (clusterEntries users) ((clusterEntries users).map Prod.fst)) :=
    clusterLoopAll_disjoint _ _ _ _ hkeys
  refine ⟨?_, ?_, ?_, hdisjAll, hfilter, fun users' h => by rw [h]⟩
  · intro g hg
    rw [hfilter] at hg
    have := List.of_mem_filter hg
    simpa using this
  · intro g hg
    rw [hfilter] at hg
    obtain ⟨uid, nm, rest, hmem, hgeq, hsim⟩ :=
      clusterLoopAll_head_sim (clusterEntries users) name_threshold
        (clusterEntries users) ((clusterEntries users).map Prod.fst) g
        (List.mem_of_mem_filter hg)
    refine ⟨uid, rest, hgeq, ?_⟩
    rw [nameMapGet_of_mem (clusterEntries users) hkeys uid nm hmem]
    exact hsim
  · rw [hfilter]
    exact List.Pairwise.sublist (List.filter_sublist _) hdisjAll

/-- Witness for C2 at a concrete batch. -/
theorem C2_witness :
    ((([(strOf "u1", (⟨some (some (strOf "ab")), Option.none⟩ : Account)),
        (strOf "u2", (⟨some (some (strOf "ab")), Option.none⟩ : Account))]).map
          Prod.fst).Nodup) ∧
    (∀ g ∈ cluster_similar_users
        [(strOf "u1", (⟨some (some (strOf "ab")), Option.none⟩ : Account)),
         (strOf "u2", (⟨some (some (strOf "ab")), Option.none⟩ : Account))]
        (7 / 10) 2, 2 ≤ g.length) := by
  constructor
  · exact of_decide_eq_true (by with_unfolding_all rfl)
  · exact (C2_theorem _ (7 / 10) 2
      (of_decide_eq_true (by with_unfolding_all rfl))).1

theorem clusterLoop_no_empty_name (entries : List (Str × Str)) (uid : Str)
    (thr : ℚ) (hthr : 0 < thr) (mg : Nat) (hmg : 2 ≤ mg)
    (hmap : nameMapGet entries uid = []) :
    ∀ (todo : List (Str × Str)) (un : List Str), un.Nodup →
      (∀ nm, (uid, nm) ∈ todo → nm = []) →
      ∀ g ∈ clusterLoop entries thr mg todo un, uid ∉ g := by
  intro todo
  induction todo with
  | nil => intro un _ _ g hg; simp [clusterLoop] at hg
  | cons e rest ih =>
      intro un hndun htodo g hg
      obtain ⟨uid', nm'⟩ := e
      unfold clusterLoop at hg
      by_cases hu : uid' ∈ un
      · simp only [hu, if_true] at hg
        set matched := (un.erase uid').filter
          (fun other => thr ≤ max_variant_similarity nm' (nameMapGet entries other))
          with hmdef
        set un2 := (un.erase uid').filter
          (fun other => ¬ thr ≤ max_variant_similarity nm' (nameMapGet entries other))
          with hu2
        have hun2 : un2.Nodup := List.Nodup.filter _ (List.Nodup.erase uid' hndun)
        have htodo' : ∀ nm, (uid, nm) ∈ rest → nm = [] := by
          intro nm h
          exact htodo nm (List.mem_cons_of_mem _ h)
        by_cases huid : uid' = uid
        · subst huid
          have hnm : nm' = [] := htodo nm' (List.mem_cons_self _ _)
          have hmz : matched = [] := by
            rw [hmdef]
            apply List.filter_eq_nil_iff.mpr
            intro o _
            rw [hnm, mvs_nil_left]
            simpa using not_le.mpr hthr
          have hlen : ¬ mg ≤ (uid' :: matched).length := by
            rw [hmz]
            simp only [List.length_cons, List.length_nil]
            omega
          rw [hmdef] at hlen
          simp only [hlen, if_false] at hg
          intro hmem
          have hin : uid' ∈ un2 :=
            clusterLoop_subset entries thr mg rest un2 g hg uid' hmem
          have : uid' ∈ un.erase uid' := List.mem_of_mem_filter hin
          exact (List.Nodup.not_mem_erase hndun) this
        · intro hmem
          have hnotgrp : uid ∉ uid' :: matched := by
            intro hin
            rcases List.mem_cons.mp hin with hin | hin
            · exact huid hin.symm
            · have := List.of_mem_filter hin
              rw [hmap, mvs_nil_right] at this
              simp only [decide_eq_true_eq] at this
              exact absurd this (not_le.mpr hthr)
          by_cases hlen : mg ≤ (uid' :: matched).length
          · rw [hmdef] at hlen
            simp only [hlen, if_true] at hg
            rcases List.mem_cons.mp hg with hg | hg
            · subst hg
              exact hnotgrp hmem
            · exact ih un2 hun2 htodo' g hg hmem
          · rw [hmdef] at hlen
            simp only [hlen, if_false] at hg
            exact ih un2 hun2 htodo' g hg hmem
      · simp only [hu, if_false] at hg
        exact ih un hndun (fun nm h => htodo nm (List.mem_cons_of_mem _ h)) g hg

/-- C9: an account whose record lacks a `latest` object or a
`latest.username` (modelled as `unameOf = ""`) never appears in any cluster
returned under the orchestrator's parameters (threshold 0.70, minimum group
size 3): as a non-seed its similarity to any seed is 0.0 < 0.70, and as a
seed it forms a singleton group, below the minimum size.  Processing such a
record is total in the model — no error path exists. -/
theorem C9_theorem (users : List (Str × Account)) (uid : Str) (acc : Account)
    (hnd : (users.map Prod.fst).Nodup) (hmem : (uid, acc) ∈ users)
    (hname : unameOf acc = []) :
    ∀ g ∈ cluster_similar_users users (7 / 10) 3, uid ∉ g := by
  have hkeys : ((clusterEntries users).map Prod.fst).Nodup := by
    rw [clusterEntries_keys]; exact hnd
  have hment : (uid, ([] : Str)) ∈ clusterEntries users := by
    unfold clusterEntries
    rw [← hname]
    exact List.mem_map.mpr ⟨(uid, acc), hmem, rfl⟩
  have hmap : nameMapGet (clusterEntries users) uid = [] :=
    nameMapGet_of_mem _ hkeys uid [] hment
  have htodo : ∀ nm, (uid, nm) ∈ clusterEntries users → nm = [] := by
    intro nm h
    exact assoc_val_unique _ hkeys uid nm [] h hment
  intro g hg
  exact clusterLoop_no_empty_name (clusterEntries users) uid (7 / 10)
    (by norm_num) 3 (by norm_num) hmap (clusterEntries users)
    ((clusterEntries users).map Prod.fst) (by rw [clusterEntries_keys]; exact hnd)
    htodo g hg

/-- Witness for C9 at a concrete batch. -/
theorem C9_witness :
    (([(strOf "x", (⟨Option.none, Option.none⟩ : Account)),
       (strOf "y", (⟨some (some (strOf "ab")), Option.none⟩ : Account))].map
        Prod.fst).Nodup) ∧
    unameOf (⟨Option.none, Option.none⟩ : Account) = [] ∧
    (∀ g ∈ cluster_similar_users
        [(strOf "x", (⟨Option.none, Option.none⟩ : Account)),
         (strOf "y", (⟨some (some (strOf "ab")), Option.none⟩ : Account))]
        (7 / 10) 3, strOf "x" ∉ g) := by
  refine ⟨of_decide_eq_true (by with_unfolding_all rfl), rfl, ?_⟩
  exact C9_theorem _ (strOf "x") ⟨Option.none, Option.none⟩
    (of_decide_eq_true (by with_unfolding_all rfl))
    (List.mem_cons_self _ _) rfl

/-!  Characterization of the `b2j` table built by the matcher. -/

theorem b2jGet_nil (c : Nat) : b2jGet [] c = [] := rfl

theorem b2jGet_cons (k : Nat) (ps : List Nat) (rest : List (Nat × List Nat)) (c : Nat) :
    b2jGet ((k, ps) :: rest) c = if k = c then ps else b2jGet rest c := by
  by_cases h : k = c
  · rw [if_pos h]
    unfold b2jGet
    rw [@List.find?_cons_of_pos _ (fun p => p.1 == c) (k, ps) rest (by simpa using h)]
  · rw [if_neg h]
    unfold b2jGet
    rw [@List.find?_cons_of_neg _ (fun p => p.1 == c) (k, ps) rest (by simpa using h)]

theorem addPos_get (m : List (Nat × List Nat)) (c' i c : Nat) :
    b2jGet (addPos m c' i) c =
      if c = c' then b2jGet m c ++ [i] else b2jGet m c := by
  induction m with
  | nil =>
      show b2jGet [(c', [i])] c = _
      rw [b2jGet_cons]
      by_cases h : c = c'
      · rw [if_pos h, if_pos h.symm, b2jGet_nil, List.nil_append]
      · rw [if_neg h, if_neg (fun hh => h hh.symm)]
  | cons p rest ih =>
      obtain ⟨k, ps⟩ := p
      show b2jGet (if k = c' then (k, ps ++ [i]) :: rest else (k, ps) :: addPos rest c' i) c = _
      by_cases hk : k = c'
      · rw [if_pos hk, b2jGet_cons, b2jGet_cons]
        subst hk
        by_cases hc : k = c
        · rw [if_pos hc, if_pos hc, if_pos hc.symm]
        · rw [if_neg hc, if_neg hc, if_neg (fun hh => hc hh.symm)]
      · rw [if_neg hk, b2jGet_cons, b2jGet_cons]
        by_cases hc : k = c
        · have hcc : ¬ c = c' := fun hh => hk (hc.trans hh)
          rw [if_pos hc, if_pos hc, if_neg hcc]
        · rw [if_neg hc, if_neg hc, ih]

theorem foldl_addPos_get (ps : List (Nat × Nat)) :
    ∀ (m : List (Nat × List Nat)) (c : Nat),
      b2jGet (ps.foldl (fun m p => addPos m p.2 p.1) m) c =
        b2jGet m c ++ (ps.filter (fun p => p.2 == c)).map Prod.fst := by
  induction ps with
  | nil => intro m c; simp
  | cons p rest ih =>
      intro m c
      rw [List.foldl_cons, ih, addPos_get, List.filter_cons]
      by_cases h : c = p.2
      · rw [if_pos h]
        have hb : (p.2 == c) = true := by simpa using h.symm
        rw [hb]
        simp
      · rw [if_neg h]
        have hb : (p.2 == c) = false := by
          simp only [beq_eq_false_iff_ne, ne_eq]
          exact fun hh => h hh.symm
        rw [hb]
        simp

theorem buildB2jAll_get (b : Str) (c : Nat) :
    b2jGet (buildB2jAll b) c = posList b c := by
  unfold buildB2jAll posList
  rw [foldl_addPos_get, b2jGet_nil, List.nil_append]

theorem addPos_keys (m : List (Nat × List Nat)) (c i : Nat) :
    (addPos m c i).map Prod.fst =
      if c ∈ m.map Prod.fst then m.map Prod.fst else m.map Prod.fst ++ [c] := by
  induction m with
  | nil => simp [addPos]
  | cons p rest ih =>
      obtain ⟨k, ps⟩ := p
      show (if k = c then (k, ps ++ [i]) :: rest else (k, ps) :: addPos rest c i).map Prod.fst = _
      by_cases hk : k = c
      · rw [if_pos hk]
        have hmem : c ∈ ((k, ps) :: rest).map Prod.fst := by simp [hk.symm]
        rw [if_pos hmem]
        simp
      · rw [if_neg hk, List.map_cons, ih]
        by_cases hc : c ∈ rest.map Prod.fst
        · rw [if_pos hc, if_pos (by simp [hc])]
          simp
        · have hnk : c ∉ ((k, ps) :: rest).map Prod.fst := by
            simp only [List.map_cons, List.mem_cons]
            push_neg
            exact ⟨fun hh => hk hh.symm, hc⟩
          rw [if_neg hc, if_neg hnk]
          simp

theorem foldl_addPos_keys_nodup (ps : List (Nat × Nat)) :
    ∀ (m : List (Nat × List Nat)), (m.map Prod.fst).Nodup →
      ((ps.foldl (fun m p => addPos m p.2 p.1) m).map Prod.fst).Nodup := by
  induction ps with
  | nil => intro m h; simpa using h
  | cons p rest ih =>
      intro m h
      rw [List.foldl_cons]
      apply ih
      rw [addPos_keys]
      by_cases hc : p.2 ∈ m.map Prod.fst
      · rw [if_pos hc]; exact h
      · rw [if_neg hc]
        rw [List.nodup_append]
        exact ⟨h, List.nodup_singleton _, by simpa [List.disjoint_singleton] using hc⟩

theorem buildB2jAll_keys_nodup (b : Str) : ((buildB2jAll b).map Prod.fst).Nodup := by
  unfold buildB2jAll
  exact foldl_addPos_keys_nodup _ [] (by simp)

theorem b2jGet_of_not_key (M : List (Nat × List Nat)) (c : Nat)
    (h : c ∉ M.map Prod.fst) : b2jGet M c = [] := by
  unfold b2jGet
  have hf : M.find? (fun p => p.1 == c) = Option.none := by
    rw [List.find?_eq_none]
    intro p hp
    simp only [beq_iff_eq]
    intro hpc
    exact h (List.mem_map.mpr ⟨p, hp, hpc⟩)
  rw [hf]

theorem b2jGet_filter (q : Nat × List Nat → Bool) (c : Nat) :
    ∀ (M : List (Nat × List Nat)), (M.map Prod.fst).Nodup →
      b2jGet (M.filter q) c =
        (match M.find? (fun p => p.1 == c) with
         | some p => if q p then p.2 else []
         | Option.none => []) := by
  intro M
  induction M with
  | nil => intro h; rfl
  | cons p rest ih =>
      intro hnd
      obtain ⟨k, ps⟩ := p
      rw [List.map_cons, List.nodup_cons] at hnd
      obtain ⟨hkey, hnd'⟩ := hnd
      by_cases hk : k = c
      · rw [@List.find?_cons_of_pos _ (fun p => p.1 == c) (k, ps) rest (by simpa using hk)]
        rw [List.filter_cons]
        by_cases hq : q (k, ps)
        · rw [if_pos hq, b2jGet_cons, if_pos hk]
          simp [hq]
        · have hq' : q (k, ps) = false := by simpa using hq
          rw [hq']
          simp only [Bool.false_eq_true, if_false]
          have : c ∉ (rest.filter q).map Prod.fst := by
            intro hc
            obtain ⟨r, hr, hrc⟩ := List.mem_map.mp hc
            exact hkey (by
              rw [← hk] at hrc
              exact (List.mem_map.mpr ⟨r, List.mem_of_mem_filter hr, hrc⟩))
          rw [b2jGet_of_not_key _ _ this]
          simp [hq']
      · rw [@List.find?_cons_of_neg _ (fun p => p.1 == c) (k, ps) rest (by simpa using hk)]
        rw [List.filter_cons]
        by_cases hq : q (k, ps)
        · rw [if_pos hq, b2jGet_cons, if_neg hk]
          exact ih hnd'
        · have hq' : q (k, ps) = false := by simpa using hq
          rw [hq']
          simp only [Bool.false_eq_true, if_false]
          exact ih hnd'

theorem enumFrom_filter_len (c : Nat) : ∀ (l : Str) (k : Nat),
    ((List.enumFrom k l).filter (fun p => p.2 == c)).length = l.count c := by
  intro l
  induction l with
  | nil => intro k; simp
  | cons x t ih =>
      intro k
      rw [List.enumFrom_cons, List.filter_cons]
      by_cases h : x = c
      · subst h
        simp [List.count_cons, ih]
      · have hb : (((k, x)).2 == c) = false := by simpa using h
        rw [hb]
        simp [List.count_cons, h, ih]

theorem posList_length (b : Str) (c : Nat) : (posList b c).length = b.count c := by
  unfold posList
  rw [List.length_map]
  exact enumFrom_filter_len c b 0

theorem mem_enumFrom_posAux (c : Nat) : ∀ (l : Str) (k i : Nat),
    i ∈ ((List.enumFrom k l).filter (fun p => p.2 == c)).map Prod.fst ↔
      (k ≤ i ∧ i - k < l.length ∧ l.getD (i - k) 0 = c) := by
  intro l
  induction l with
  | nil => intro k i; simp
  | cons x t ih =>
      intro k i
      rw [List.enumFrom_cons, List.filter_cons]
      by_cases h : x = c
      · subst h
        have hb : (((k, x)).2 == x) = true := by simp
        rw [hb]
        simp only [if_true, List.map_cons, List.mem_cons, ih]
        constructor
        · rintro (rfl | ⟨h1, h2, h3⟩)
          · exact ⟨le_refl i, by simp, by simp⟩
          · refine ⟨by omega, by simp; omega, ?_⟩
            have he : i - k = (i - (k + 1)) + 1 := by omega
            rw [he, List.getD_cons_succ]
            exact h3
        · rintro ⟨h1, h2, h3⟩
          by_cases hik : i = k
          · exact Or.inl hik
          · refine Or.inr ⟨by omega, by simp at h2; omega, ?_⟩
            have he : i - k = (i - (k + 1)) + 1 := by omega
            rw [he, List.getD_cons_succ] at h3
            exact h3
      · have hb : (((k, x)).2 == c) = false := by simpa using h
        rw [hb]
        simp only [Bool.false_eq_true, if_false, ih]
        constructor
        · rintro ⟨h1, h2, h3⟩
          refine ⟨by omega, by simp; omega, ?_⟩
          have he : i - k = (i - (k + 1)) + 1 := by omega
          rw [he, List.getD_cons_succ]
          exact h3
        · rintro ⟨h1, h2, h3⟩
          have hik : ¬ i = k := by
            intro hh
            subst hh
            simp at h3
            exact h (h3.symm ▸ rfl)
          refine ⟨by omega, by simp at h2; omega, ?_⟩
          have he : i - k = (i - (k + 1)) + 1 := by omega
          rw [he, List.getD_cons_succ] at h3
          exact h3

theorem posList_mem (b : Str) (c i : Nat) :
    i ∈ posList b c ↔ (i < b.length ∧ b.getD i 0 = c) := by
  unfold posList
  have he : b.enum = List.enumFrom 0 b := rfl
  rw [he, mem_enumFrom_posAux]
  constructor
  · rintro ⟨_, h2, h3⟩
    rw [Nat.sub_zero] at h2 h3
    exact ⟨h2, h3⟩
  · rintro ⟨h1, h2⟩
    refine ⟨Nat.zero_le i, ?_, ?_⟩
    · rw [Nat.sub_zero]; exact h1
    · rw [Nat.sub_zero]; exact h2

theorem mem_enumFrom_fst_le : ∀ (l : Str) (k : Nat) (q : Nat × Nat),
    q ∈ List.enumFrom k l → k ≤ q.1 := by
  intro l
  induction l with
  | nil => intro k q hq; simp at hq
  | cons x t ih =>
      intro k q hq
      rw [List.enumFrom_cons] at hq
      rcases List.mem_cons.mp hq with h | h
      · subst h; exact le_refl k
      · exact le_trans (Nat.le_succ k) (ih (k + 1) q h)

theorem enumFrom_fst_lt : ∀ (l : Str) (k : Nat),
    List.Pairwise (fun p q => p.1 < q.1) (List.enumFrom k l) := by
  intro l
  induction l with
  | nil => intro k; simp
  | cons x t ih =>
      intro k
      rw [List.enumFrom_cons]
      refine List.pairwise_cons.mpr ⟨?_, ih (k + 1)⟩
      intro q hq
      have := mem_enumFrom_fst_le t (k + 1) q hq
      omega

theorem posList_pairwise (b : Str) (c : Nat) :
    List.Pairwise (fun i j => i < j) (posList b c) := by
  unfold posList
  rw [List.pairwise_map]
  have he : b.enum = List.enumFrom 0 b := rfl
  rw [he]
  exact List.Pairwise.filter _ (enumFrom_fst_lt b 0)

theorem b2jGet_filter_none (q : Nat × List Nat → Bool) (c : Nat)
    (M : List (Nat × List Nat)) (hnd : (M.map Prod.fst).Nodup)
    (hfind : M.find? (fun p => p.1 == c) = Option.none) :
    b2jGet (M.filter q) c = [] := by
  have h := b2jGet_filter q c M hnd
  rw [hfind] at h
  exact h

theorem b2jGet_filter_some (q : Nat × List Nat → Bool) (c : Nat)
    (M : List (Nat × List Nat)) (hnd : (M.map Prod.fst).Nodup)
    (p : Nat × List Nat) (hfind : M.find? (fun p => p.1 == c) = some p) :
    b2jGet (M.filter q) c = if q p then p.2 else [] := by
  have h := b2jGet_filter q c M hnd
  rw [hfind] at h
  exact h

/-- The purged `b2j` lookup: popular codepoints are dropped, the rest map to
their ascending position lists. -/
theorem b2jPurged_get (b : Str) (c : Nat) :
    b2jGet (b2jPurged b) c = if popS b c then [] else posList b c := by
  unfold b2jPurged
  by_cases hlen : 200 ≤ b.length
  · rw [if_pos hlen]
    have hall := buildB2jAll_get b c
    rcases hfind : (buildB2jAll b).find? (fun p => p.1 == c) with _ | p
    · rw [b2jGet_filter_none _ c (buildB2jAll b) (buildB2jAll_keys_nodup b) hfind]
      have hnil : posList b c = [] := by
        rw [← hall]
        unfold b2jGet
        rw [hfind]
      rw [hnil, ite_self]
    · have hget : p.2 = posList b c := by
        rw [← hall]
        unfold b2jGet
        rw [hfind]
      rw [b2jGet_filter_some _ c (buildB2jAll b) (buildB2jAll_keys_nodup b) p hfind]
      have hlenq : p.2.length = b.count c := by
        rw [hget, posList_length]
      by_cases hq : p.2.length ≤ b.length / 100 + 1
      · rw [if_pos (by simpa using hq)]
        rw [if_neg]
        · exact hget
        · intro hpop
          unfold popS at hpop
          omega
      · rw [if_neg (by simpa using hq)]
        rw [if_pos]
        unfold popS
        exact ⟨hlen, by omega⟩
  · rw [if_neg hlen]
    rw [buildB2jAll_get]
    rw [if_neg]
    intro hpop
    unfold popS at hpop
    exact hlen hpop.1

/-!  Symbolic evaluation tools for the matcher loops. -/

theorem flmInner_nil (i blo bhi : Nat) (prev acc : List (Nat × Nat))
    (best : Nat × Nat × Nat) :
    flmInner i blo bhi prev [] acc best = (acc, best) := rfl

theorem flmOuter_all_miss (a : Str) (m : List (Nat × List Nat)) (blo bhi : Nat) :
    ∀ (is : List Nat) (j2len : List (Nat × Nat)) (best : Nat × Nat × Nat),
      (∀ i ∈ is, b2jGet m (a.getD i 0) = []) →
      flmOuter a m blo bhi is j2len best = best := by
  intro is
  induction is with
  | nil => intro j2len best h; rfl
  | cons i is ih =>
      intro j2len best h
      show flmOuter a m blo bhi is
        (flmInner i blo bhi j2len (b2jGet m (a.getD i 0)) [] best).1
        (flmInner i blo bhi j2len (b2jGet m (a.getD i 0)) [] best).2 = best
      rw [h i (List.mem_cons_self i is), flmInner_nil]
      exact ih [] best (fun j hj => h j (List.mem_cons_of_mem i hj))

theorem extLeft_stop (a b : Str) (alo blo bi bj k : Nat)
    (h : ¬(alo < bi ∧ blo < bj ∧ a.getD (bi - 1) 0 = b.getD (bj - 1) 0)) :
    extLeft a b alo blo bi bj k = (bi, bj, k) := by
  rw [extLeft, dif_neg h]

theorem extRS_exact (a b : Str) (ahi bhi bi bj : Nat) :
    ∀ (n k : Nat),
      (∀ t, t < n → bi + k + t < ahi ∧ bj + k + t < bhi ∧
        a.getD (bi + k + t) 0 = b.getD (bj + k + t) 0) →
      ¬(bi + k + n < ahi ∧ bj + k + n < bhi ∧
        a.getD (bi + k + n) 0 = b.getD (bj + k + n) 0) →
      extRightSize a b ahi bhi bi bj k = k + n := by
  intro n
  induction n with
  | zero =>
      intro k h hstop
      rw [extRightSize, dif_neg (by simpa using hstop)]
      omega
  | succ n ih =>
      intro k h hstop
      rw [extRightSize]
      have h0 := h 0 (Nat.succ_pos n)
      rw [dif_pos (by simpa using h0)]
      have hrec := ih (k + 1)
        (by
          intro t ht
          have ht' := h (t + 1) (by omega)
          have e1 : bi + (k + 1) + t = bi + k + (t + 1) := by omega
          have e2 : bj + (k + 1) + t = bj + k + (t + 1) := by omega
          rw [e1, e2]
          exact ht')
        (by
          have e1 : bi + (k + 1) + n = bi + k + (n + 1) := by omega
          have e2 : bj + (k + 1) + n = bj + k + (n + 1) := by omega
          rw [e1, e2]
          exact hstop)
      rw [hrec]
      omega

/-!  Positional facts about the concrete strings used by counterexamples. -/

theorem getD_rep : ∀ (n t a : Nat), t < n → (List.replicate n a).getD t 0 = a := by
  intro n
  induction n with
  | zero => intro t a h; omega
  | succ n ih =>
      intro t a h
      rw [List.replicate_succ]
      cases t with
      | zero => rfl
      | succ t => exact ih t a (by omega)

theorem getD_append_lt : ∀ (l l₂ : Str) (t : Nat), t < l.length →
    (l ++ l₂).getD t 0 = l.getD t 0 := by
  intro l
  induction l with
  | nil => intro l₂ t h; simp at h
  | cons x r ih =>
      intro l₂ t h
      rw [List.cons_append]
      cases t with
      | zero => rfl
      | succ t =>
          rw [List.getD_cons_succ, List.getD_cons_succ]
          exact ih l₂ t (by simp at h; omega)

theorem getD_append_ge : ∀ (l l₂ : Str) (t : Nat), l.length ≤ t →
    (l ++ l₂).getD t 0 = l₂.getD (t - l.length) 0 := by
  intro l
  induction l with
  | nil => intro l₂ t h; simp
  | cons x r ih =>
      intro l₂ t h
      rw [List.cons_append]
      cases t with
      | zero => simp at h
      | succ t =>
          rw [List.getD_cons_succ, ih l₂ t (by simp at h; omega)]
          rw [List.length_cons, Nat.succ_sub_succ]

theorem getD_rep_app (n a d : Nat) : ∀ (t : Nat),
    ((List.replicate n a ++ [d] : Str)).getD t 0 =
      if t < n then a else if t = n then d else 0 := by
  intro t
  by_cases h1 : t < n
  · rw [if_pos h1]
    rw [getD_append_lt _ _ t (by simpa using h1)]
    exact getD_rep n t a h1
  · rw [if_neg h1]
    rw [getD_append_ge _ _ t (by simpa using h1)]
    rw [List.length_replicate]
    by_cases h2 : t = n
    · rw [if_pos h2, h2, Nat.sub_self]
      rfl
    · rw [if_neg h2]
      have : t - n = (t - n - 1) + 1 := by omega
      rw [this, List.getD_cons_succ]
      rfl

theorem jlGet_nil (k : Nat) : jlGet [] k = 0 := rfl

theorem dext_pos (s : Str) (i j : Nat)
    (h : s.getD i 0 = s.getD j 0 ∧ ¬ popS s (s.getD j 0)) : 1 ≤ dext s i j := by
  rw [dext, if_pos h]
  by_cases h2 : 0 < i ∧ 0 < j
  · rw [dif_pos h2]
    omega
  · rw [dif_neg h2]

theorem dext_zero_of_pop (s : Str) (i j : Nat) (h : popS s (s.getD j 0)) :
    dext s i j = 0 := by
  rw [dext, if_neg (fun hc => hc.2 h)]

theorem dext_succ (s : Str) (i j : Nat)
    (h : s.getD i 0 = s.getD j 0 ∧ ¬ popS s (s.getD j 0)) (hi : 0 < i) (hj : 0 < j) :
    dext s i j = dext s (i - 1) (j - 1) + 1 := by
  rw [dext, if_pos h, dif_pos ⟨hi, hj⟩]

theorem dext_base (s : Str) (i j : Nat)
    (h : s.getD i 0 = s.getD j 0 ∧ ¬ popS s (s.getD j 0)) (hij : ¬(0 < i ∧ 0 < j)) :
    dext s i j = 1 := by
  rw [dext, if_pos h, dif_neg hij]

theorem dext_diag_pop (s : Str) (j : Nat) (h : popS s (s.getD j 0)) :
    dext s j j = 0 := dext_zero_of_pop s j j h

theorem dext_diag_zero (s : Str) (h : ¬ popS s (s.getD 0 0)) :
    dext s 0 0 = 1 := dext_base s 0 0 ⟨rfl, h⟩ (by omega)

theorem dext_diag_succ (s : Str) (r : Nat) (h : ¬ popS s (s.getD (r + 1) 0)) :
    dext s (r + 1) (r + 1) = dext s r r + 1 := by
  rw [dext_succ s (r + 1) (r + 1) ⟨rfl, h⟩ (Nat.succ_pos r) (Nat.succ_pos r)]
  simp

theorem dext_le_diag_left (s : Str) : ∀ (i j : Nat), dext s i j ≤ dext s i i := by
  intro i
  induction i using Nat.strong_induction_on with
  | _ i ih =>
      intro j
      by_cases hc : s.getD i 0 = s.getD j 0 ∧ ¬ popS s (s.getD j 0)
      · have hcd : s.getD i 0 = s.getD i 0 ∧ ¬ popS s (s.getD i 0) := by
          refine ⟨rfl, ?_⟩
          rw [hc.1]
          exact hc.2
        by_cases h2 : 0 < i ∧ 0 < j
        · rw [dext_succ s i j hc h2.1 h2.2, dext_succ s i i hcd h2.1 h2.1]
          have := ih (i - 1) (by omega) (j - 1)
          omega
        · rw [dext_base s i j hc h2]
          exact dext_pos s i i hcd
      · have h0 : dext s i j = 0 := by rw [dext, if_neg hc]
        rw [h0]
        exact Nat.zero_le _

theorem dext_le_diag_right (s : Str) : ∀ (i j : Nat), dext s i j ≤ dext s j j := by
  intro i
  induction i using Nat.strong_induction_on with
  | _ i ih =>
      intro j
      by_cases hc : s.getD i 0 = s.getD j 0 ∧ ¬ popS s (s.getD j 0)
      · have hcd : s.getD j 0 = s.getD j 0 ∧ ¬ popS s (s.getD j 0) := ⟨rfl, hc.2⟩
        by_cases h2 : 0 < i ∧ 0 < j
        · rw [dext_succ s i j hc h2.1 h2.2, dext_succ s j j hcd h2.2 h2.2]
          have := ih (i - 1) (by omega) (j - 1)
          omega
        · rw [dext_base s i j hc h2]
          exact dext_pos s j j hcd
      · have h0 : dext s i j = 0 := by rw [dext, if_neg hc]
        rw [h0]
        exact Nat.zero_le _

theorem find?_append_none {α : Type} (l₂ : List α) (p : α → Bool) :
    ∀ (l₁ : List α), l₁.find? p = Option.none → (l₁ ++ l₂).find? p = l₂.find? p := by
  intro l₁
  induction l₁ with
  | nil => intro h; simp
  | cons x t ih =>
      intro h
      by_cases hx : p x = true
      · rw [@List.find?_cons_of_pos _ p x t hx] at h
        exact absurd h (by simp)
      · rw [List.cons_append, @List.find?_cons_of_neg _ p x (t ++ l₂) hx]
        rw [@List.find?_cons_of_neg _ p x t hx] at h
        exact ih h

theorem find?_append_some {α : Type} (l₂ : List α) (p : α → Bool) (a : α) :
    ∀ (l₁ : List α), l₁.find? p = some a → (l₁ ++ l₂).find? p = some a := by
  intro l₁
  induction l₁ with
  | nil => intro h; simp at h
  | cons x t ih =>
      intro h
      by_cases hx : p x = true
      · rw [@List.find?_cons_of_pos _ p x t hx] at h
        rw [List.cons_append, @List.find?_cons_of_pos _ p x (t ++ l₂) hx]
        exact h
      · rw [@List.find?_cons_of_neg _ p x t hx] at h
        rw [List.cons_append, @List.find?_cons_of_neg _ p x (t ++ l₂) hx]
        exact ih h

theorem jlGet_append_entry (acc : List (Nat × Nat)) (j w : Nat)
    (h : ∀ p ∈ acc, p.1 ≠ j) : jlGet (acc ++ [(j, w)]) j = w := by
  unfold jlGet
  have hfn : acc.find? (fun p => p.1 == j) = Option.none :=
    List.find?_eq_none.mpr (fun p hp => by simpa using h p hp)
  rw [find?_append_none _ _ acc hfn]
  rw [@List.find?_cons_of_pos _ (fun p => p.1 == j) (j, w) [] (by simp)]

theorem jlGet_append_found (acc l : List (Nat × Nat)) (k : Nat) (q : Nat × Nat)
    (h : acc.find? (fun p => p.1 == k) = some q) :
    jlGet (acc ++ l) k = jlGet acc k := by
  unfold jlGet
  rw [find?_append_some _ _ q acc h, h]

theorem jlGet_of_pos (m : List (Nat × Nat)) (k : Nat) (h : 1 ≤ jlGet m k) :
    ∃ q, m.find? (fun p => p.1 == k) = some q := by
  rcases hf : m.find? (fun p => p.1 == k) with _ | q
  · exfalso
    unfold jlGet at h
    rw [hf] at h
    exact absurd (show (1 : Nat) ≤ 0 from h) (by omega)
  · exact ⟨q, hf⟩

theorem jlGet_le_of_all (m : List (Nat × Nat)) (f : Nat → Nat)
    (h : ∀ p ∈ m, p.2 ≤ f p.1) : ∀ k, jlGet m k ≤ f k := by
  intro k
  unfold jlGet
  rcases hf : m.find? (fun p => p.1 == k) with _ | q
  · rw [hf]
    exact Nat.zero_le _
  · rw [hf]
    have hq := List.mem_of_find?_eq_some hf
    have hk : q.1 = k := by simpa using List.find?_some hf
    have := h q hq
    rw [hk] at this
    exact this

theorem cell_bound (s : Str) (r : Nat) (prev : List (Nat × Nat))
    (PB : ∀ k, jlGet prev k ≤ dextR s r k) (hnp : ¬ popS s (s.getD r 0))
    (j : Nat) (hj : s.getD j 0 = s.getD r 0) :
    jlGetPred prev j + 1 ≤ dext s r j := by
  have hcell : s.getD r 0 = s.getD j 0 ∧ ¬ popS s (s.getD j 0) := by
    refine ⟨hj.symm, ?_⟩
    rw [hj]
    exact hnp
  unfold jlGetPred
  by_cases hj0 : j = 0
  · rw [if_pos hj0]
    have := dext_pos s r j hcell
    omega
  · rw [if_neg hj0]
    rcases r with _ | r'
    · have hple : jlGet prev (j - 1) ≤ 0 := PB (j - 1)
      have := dext_pos s 0 j hcell
      omega
    · rw [dext_succ s (r' + 1) j hcell (Nat.succ_pos r') (by omega)]
      have hple : jlGet prev (j - 1) ≤ dext s r' (j - 1) := PB (j - 1)
      simp only [Nat.add_sub_cancel]
      omega

theorem diag_exact (s : Str) (r : Nat) (prev : List (Nat × Nat))
    (PB : ∀ k, jlGet prev k ≤ dextR s r k)
    (PE : ∀ r', r' + 1 = r → ¬ popS s (s.getD r' 0) → jlGet prev r' = dext s r' r')
    (hnp : ¬ popS s (s.getD r 0)) :
    jlGetPred prev r + 1 = dext s r r := by
  unfold jlGetPred
  rcases r with _ | r'
  · rw [if_pos rfl, dext_diag_zero s hnp]
  · rw [if_neg (Nat.succ_ne_zero r')]
    simp only [Nat.add_sub_cancel]
    by_cases hp : popS s (s.getD r' 0)
    · have hd0 : dext s r' r' = 0 := dext_diag_pop s r' hp
      have hple : jlGet prev r' ≤ dext s r' r' := PB r'
      rw [dext_diag_succ s r' hnp]
      omega
    · rw [PE r' rfl hp, dext_diag_succ s r' hnp]

/-- Inner scan on a self-comparison row: every stored chain value stays below
its cell capacity, the diagonal entry is exact, and the best block stays
diagonal while coming to dominate the row's diagonal capacity. -/
theorem flmInner_self (s : Str) (r : Nat) (prev : List (Nat × Nat))
    (PB : ∀ k, jlGet prev k ≤ dextR s r k)
    (hnp : ¬ popS s (s.getD r 0))
    (hdx : jlGetPred prev r + 1 = dext s r r) :
    ∀ (js : List Nat) (acc : List (Nat × Nat)) (best : Nat × Nat × Nat),
      List.Pairwise (fun i j => i < j) js →
      (∀ j ∈ js, j < s.length ∧ s.getD j 0 = s.getD r 0) →
      (∀ p ∈ acc, p.2 ≤ dext s r p.1) →
      ((r ∈ js ∧ ∀ p ∈ acc, p.1 ≠ r) ∨ jlGet acc r = dext s r r) →
      best.1 = best.2.1 →
      (∀ r' < r, dext s r' r' ≤ best.2.2) →
      (r ∈ js ∨ dext s r r ≤ best.2.2) →
      (∀ p ∈ (flmInner r 0 s.length prev js acc best).1, p.2 ≤ dext s r p.1) ∧
      jlGet (flmInner r 0 s.length prev js acc best).1 r = dext s r r ∧
      (flmInner r 0 s.length prev js acc best).2.1 =
        (flmInner r 0 s.length prev js acc best).2.2.1 ∧
      (∀ r' < r, dext s r' r' ≤ (flmInner r 0 s.length prev js acc best).2.2.2) ∧
      dext s r r ≤ (flmInner r 0 s.length prev js acc best).2.2.2 := by
  intro js
  induction js with
  | nil =>
      intro acc best _ _ hI1 hI2 hI3 hI4 hI5
      rw [flmInner_nil]
      rcases hI2 with ⟨hin, _⟩ | hex
      · exact absurd hin (List.not_mem_nil r)
      · rcases hI5 with hin | hle
        · exact absurd hin (List.not_mem_nil r)
        · exact ⟨hI1, hex, hI3, hI4, hle⟩
  | cons j js' ih =>
      intro acc best hpw hjs hI1 hI2 hI3 hI4 hI5
      have hjlt : j < s.length := (hjs j (List.mem_cons_self j js')).1
      have hjc : s.getD j 0 = s.getD r 0 := (hjs j (List.mem_cons_self j js')).2
      have hwb : jlGetPred prev j + 1 ≤ dext s r j := cell_bound s r prev PB hnp j hjc
      simp only [flmInner]
      rw [if_neg (Nat.not_lt_zero j), if_neg (show ¬ s.length ≤ j by omega)]
      by_cases hupd : best.2.2 < jlGetPred prev j + 1
      · have hjr : j = r := by
          by_contra hne
          rcases Nat.lt_or_ge j r with hlt | hge
          · have h1 : dext s r j ≤ dext s j j := dext_le_diag_right s r j
            have h2 : dext s j j ≤ best.2.2 := hI4 j hlt
            omega
          · have hgt : r < j := by omega
            have hnin : r ∉ j :: js' := by
              intro hin
              rcases List.mem_cons.mp hin with h | h
              · omega
              · have := (List.pairwise_cons.mp hpw).1 r h
                omega
            have hle : dext s r r ≤ best.2.2 := by
              rcases hI5 with h | h
              · exact absurd h hnin
              · exact h
            have h1 : dext s r j ≤ dext s r r := dext_le_diag_left s r j
            omega
        subst hjr
        rw [if_pos hupd]
        refine ih (acc ++ [(j, jlGetPred prev j + 1)])
          (j + 1 - (jlGetPred prev j + 1), j + 1 - (jlGetPred prev j + 1),
            jlGetPred prev j + 1)
          (List.pairwise_cons.mp hpw).2
          (fun j' hj' => hjs j' (List.mem_cons_of_mem j hj'))
          ?_ ?_ rfl ?_ ?_
        · intro p hp
          rcases List.mem_append.mp hp with hp | hp
          · exact hI1 p hp
          · have hpe := List.mem_singleton.mp hp
            rw [hpe]
            show jlGetPred prev j + 1 ≤ dext s j j
            omega
        · right
          rcases hI2 with ⟨_, hnone⟩ | hex
          · rw [jlGet_append_entry acc j (jlGetPred prev j + 1) hnone]
            exact hdx
          · have hpos : 1 ≤ jlGet acc j := by
              rw [hex]
              exact dext_pos s j j ⟨rfl, hnp⟩
            obtain ⟨q, hq⟩ := jlGet_of_pos acc j hpos
            rw [jlGet_append_found acc [(j, jlGetPred prev j + 1)] j q hq]
            exact hex
        · intro r' hr'
          show dext s r' r' ≤ jlGetPred prev j + 1
          have h4 := hI4 r' hr'
          omega
        · right
          show dext s j j ≤ jlGetPred prev j + 1
          omega
      · rw [if_neg hupd]
        refine ih (acc ++ [(j, jlGetPred prev j + 1)]) best
          (List.pairwise_cons.mp hpw).2
          (fun j' hj' => hjs j' (List.mem_cons_of_mem j hj'))
          ?_ ?_ hI3 hI4 ?_
        · intro p hp
          rcases List.mem_append.mp hp with hp | hp
          · exact hI1 p hp
          · have hpe := List.mem_singleton.mp hp
            rw [hpe]
            show jlGetPred prev j + 1 ≤ dext s r j
            exact hwb
        · rcases hI2 with ⟨hrin, hnone⟩ | hex
          · by_cases hjr : j = r
            · right
              subst hjr
              rw [jlGet_append_entry acc j (jlGetPred prev j + 1) hnone]
              exact hdx
            · left
              refine ⟨?_, ?_⟩
              · rcases List.mem_cons.mp hrin with h | h
                · exact absurd h.symm hjr
                · exact h
              · intro p hp
                rcases List.mem_append.mp hp with hp | hp
                · exact hnone p hp
                · have hpe := List.mem_singleton.mp hp
                  rw [hpe]
                  exact hjr
          · right
            have hpos : 1 ≤ jlGet acc r := by
              rw [hex]
              exact dext_pos s r r ⟨rfl, hnp⟩
            obtain ⟨q, hq⟩ := jlGet_of_pos acc r hpos
            rw [jlGet_append_found acc [(j, jlGetPred prev j + 1)] r q hq]
            exact hex
        · rcases hI5 with hin | hle
          · rcases List.mem_cons.mp hin with h | h
            · right
              rw [← h] at hupd
              omega
            · left
              exact h
          · right
            exact hle

/-- Outer self-comparison loop: the running best block stays diagonal. -/
theorem flmOuter_self (s : Str) :
    ∀ (cnt r : Nat) (m : List (Nat × Nat)) (best : Nat × Nat × Nat),
      r + cnt ≤ s.length → OutInv s r m best →
      (flmOuter s (b2jPurged s) 0 s.length (List.range' r cnt) m best).1 =
        (flmOuter s (b2jPurged s) 0 s.length (List.range' r cnt) m best).2.1 := by
  intro cnt
  induction cnt with
  | zero =>
      intro r m best hle hinv
      exact hinv.2.2.1
  | succ cnt ih =>
      intro r m best hle hinv
      rw [List.range'_succ]
      simp only [flmOuter]
      obtain ⟨hO1, hO2, hO3, hO4⟩ := hinv
      by_cases hp : popS s (s.getD r 0)
      · rw [b2jPurged_get, if_pos hp, flmInner_nil]
        refine ih (r + 1) [] best (by omega) ⟨?_, ?_, hO3, ?_⟩
        · intro k
          rw [jlGet_nil]
          exact Nat.zero_le _
        · intro r' hr' hnp'
          have hrr : r' = r := by omega
          subst hrr
          exact absurd hp hnp'
        · intro r' hr'
          rcases Nat.lt_succ_iff_lt_or_eq.mp hr' with h | h
          · exact hO4 r' h
          · subst h
            rw [dext_diag_pop s r' hp]
            exact Nat.zero_le _
      · rw [b2jPurged_get, if_neg hp]
        have hrlen : r < s.length := by omega
        have hinner := flmInner_self s r m hO1 hp (diag_exact s r m hO1 hO2 hp)
          (posList s (s.getD r 0)) [] best
          (posList_pairwise s (s.getD r 0))
          (fun j hj => by
            have := (posList_mem s (s.getD r 0) j).mp hj
            exact ⟨this.1, this.2⟩)
          (by intro p hp'; simp at hp')
          (Or.inl ⟨(posList_mem s (s.getD r 0) r).mpr ⟨hrlen, rfl⟩,
            by intro p hp'; simp at hp'⟩)
          hO3 hO4
          (Or.inl ((posList_mem s (s.getD r 0) r).mpr ⟨hrlen, rfl⟩))
        obtain ⟨hC1, hC2, hC3, hC4, hC5⟩ := hinner
        refine ih (r + 1)
          (flmInner r 0 s.length m (posList s (s.getD r 0)) [] best).1
          (flmInner r 0 s.length m (posList s (s.getD r 0)) [] best).2
          (by omega) ⟨?_, ?_, hC3, ?_⟩
        · exact jlGet_le_of_all _ _ hC1
        · intro r' hr' _
          have hrr : r' = r := by omega
          subst hrr
          exact hC2
        · intro r' hr'
          rcases Nat.lt_succ_iff_lt_or_eq.mp hr' with h | h
          · exact hC4 r' h
          · subst h
            exact hC5

theorem extLeft_self (s : Str) : ∀ (bi k : Nat),
    extLeft s s 0 0 bi bi k = (0, 0, k + bi) := by
  intro bi
  induction bi with
  | zero =>
      intro k
      rw [extLeft, dif_neg (fun hc => Nat.lt_irrefl 0 hc.1)]
      simp
  | succ bi ih =>
      intro k
      rw [extLeft, dif_pos ⟨Nat.succ_pos bi, Nat.succ_pos bi, rfl⟩]
      simp only [Nat.add_sub_cancel]
      rw [ih (k + 1)]
      have he : k + 1 + bi = k + (bi + 1) := by omega
      rw [he]

theorem extRS_self (s : Str) : ∀ (fuel k : Nat), fuel = s.length - k →
    k ≤ s.length → extRightSize s s s.length s.length 0 0 k = s.length := by
  intro fuel
  induction fuel with
  | zero =>
      intro k hfuel hk
      rw [extRightSize, dif_neg (fun hc => absurd hc.1 (by omega))]
      omega
  | succ fuel ih =>
      intro k hfuel hk
      rw [extRightSize, dif_pos ⟨by omega, by omega, rfl⟩]
      exact ih (k + 1) (by omega) (by omega)

/-- On a self comparison, `find_longest_match` returns the whole window: the
dynamic program's best block is diagonal, and the two extension loops expand a
diagonal block to the full string. -/
theorem flm_self (s : Str) :
    find_longest_match s s (b2jPurged s) 0 s.length 0 s.length =
      (0, 0, s.length) := by
  unfold find_longest_match
  set d := flmOuter s (b2jPurged s) 0 s.length (List.range' 0 (s.length - 0)) []
    (0, 0, 0) with hd
  have hdiag : d.1 = d.2.1 := by
    rw [hd]
    exact flmOuter_self s (s.length - 0) 0 [] (0, 0, 0) (by omega)
      ⟨fun k => Nat.le_refl 0, fun r' hr' => absurd hr' (by omega), rfl,
        fun r' hr' => absurd hr' (Nat.not_lt_zero r')⟩
  have hbinv : BInv 0 s.length 0 s.length d := by
    rw [hd]
    exact flmOuter_inv s (b2jPurged s) 0 s.length 0 s.length (s.length - 0) 0 []
      (0, 0, 0) 0 (by omega) (by omega) (by omega)
      (by intro p hp; simp at hp)
      ⟨Nat.le_refl 0, Nat.le_refl 0, Or.inr ⟨rfl, rfl, rfl⟩⟩
  have he : extLeft s s 0 0 d.1 d.2.1 d.2.2 = (0, 0, d.2.2 + d.1) := by
    rw [← hdiag]
    exact extLeft_self s d.1 d.2.2
  dsimp only
  rw [he]
  have hle : d.2.2 + d.1 ≤ s.length := by
    obtain ⟨h1, h2, h3⟩ := hbinv
    rcases h3 with h3 | h3
    · omega
    · omega
  show (0, 0, extRightSize s s s.length s.length 0 0 (d.2.2 + d.1)) =
    (0, 0, s.length)
  rw [extRS_self s (s.length - (d.2.2 + d.1)) (d.2.2 + d.1) rfl hle]

theorem matchSum_self (s : Str) (h : s ≠ []) :
    matchSum s s (b2jPurged s) 0 s.length 0 s.length = s.length := by
  have hn : s.length ≠ 0 := fun hh => h (List.length_eq_zero.mp hh)
  rw [matchSum, flm_self]
  rw [dif_neg (show ¬ ((0, 0, s.length) : Nat × Nat × Nat).2.2 = 0 from hn)]
  rw [dif_neg (fun hc => Nat.lt_irrefl 0 hc.1)]
  have hR : ¬ (0 + s.length < s.length) := by omega
  rw [dif_neg (fun hc => hR hc.1)]
  show s.length + 0 + 0 = s.length
  omega

/-- `SequenceMatcher(None, s, s).ratio()` is exactly `1.0`, autojunk
included. -/
theorem smRatio_self (s : Str) (h : s ≠ []) : smRatio s s = 1 := by
  unfold smRatio
  have hn : s.length ≠ 0 := fun hh => h (List.length_eq_zero.mp hh)
  rw [if_neg (by omega), matchSum_self s h]
  have hq : ((s.length : ℚ) + s.length) ≠ 0 := by
    have h1 : 0 < s.length := Nat.pos_of_ne_zero hn
    have h2 : (0 : ℚ) < (s.length : ℚ) := by exact_mod_cast h1
    intro hc
    nlinarith
  field_simp
  ring

/-- A scan whose first pair already has ratio `1.0` short-circuits to `1.0`
(the `>= 0.999` early return). -/
theorem scan_head_hit (p : Str × Str) (rest : List (Str × Str))
    (h : name_similarity p.1 p.2 = 1) : scanPairs (p :: rest) 0 = 1 := by
  obtain ⟨x, y⟩ := p
  have hstep : scanPairs ((x, y) :: rest) 0 =
      if (0 : ℚ) < name_similarity x y then
        (if (999 : ℚ) / 1000 ≤ name_similarity x y then name_similarity x y
         else scanPairs rest (name_similarity x y))
      else scanPairs rest 0 := rfl
  rw [hstep]
  dsimp only at h
  rw [h]
  norm_num

/-- The head pair of the variant cross product. -/
theorem allPairs_cons_head (a b : Str) (v : Str) (vs : List Str) (w : Str)
    (ws : List Str) (ha : normalize_name_variants a = v :: vs)
    (hb : normalize_name_variants b = w :: ws) :
    ∃ rest, allPairs a b = (v, w) :: rest := by
  unfold allPairs
  rw [ha, hb, List.flatMap_cons, List.map_cons, List.cons_append]
  exact ⟨_, rfl⟩

theorem variants_entry_ne_nil (raw : Str) (v : Str)
    (h : v ∈ normalize_name_variants raw) : v ≠ [] := by
  unfold normalize_name_variants at h
  have hf := (List.mem_filter.mp h).2
  intro hv
  subst hv
  simp at hf

/-- C5 (amended): for every non-empty string whose variant set is non-empty,
`max_variant_similarity(a, a) = 1.0` — the first scanned pair compares a
variant against itself, its `SequenceMatcher` ratio is exactly `1.0`, and the
`>= 0.999` short circuit returns it. -/
theorem C5_amended (a : Str) (h1 : a ≠ []) (h2 : normalize_name_variants a ≠ []) :
    max_variant_similarity a a = 1 := by
  obtain ⟨v, vs, hv⟩ := List.exists_cons_of_ne_nil h2
  have hvmem : v ∈ normalize_name_variants a := by
    rw [hv]
    exact List.mem_cons_self v vs
  have hvne : v ≠ [] := variants_entry_ne_nil a v hvmem
  have hsim : name_similarity v v = 1 := by
    unfold name_similarity
    rw [if_neg (by simp [List.isEmpty_iff, hvne])]
    exact smRatio_self v hvne
  obtain ⟨rest, hrest⟩ := allPairs_cons_head a a v vs v vs hv hv
  unfold max_variant_similarity
  rw [hrest]
  exact scan_head_hit (v, v) rest hsim

/-- Witness for the amended C5 theorem at the concrete input `"a"`. -/
theorem C5_amended_witness :
    ([97] : Str) ≠ [] ∧ normalize_name_variants [97] ≠ [] ∧
      max_variant_similarity [97] [97] = 1 := by
  have hvar : normalize_name_variants [97] = [[97]] := by with_unfolding_all rfl
  refine ⟨by decide, ?_, ?_⟩
  · rw [hvar]
    simp
  · exact C5_amended [97] (by decide) (by rw [hvar]; simp)

/-!  Identity behaviour of the normalization stages on restricted
codepoint classes, used to compute variant lists symbolically. -/

theorem alnum_class (c : Nat) (h : isAlnumCh c = true) :
    c < 128 ∧ c < 163 ∧ ¬(65 ≤ c ∧ c ≤ 90) ∧ isSpaceCh c = false ∧
    isSep1Ch c = false ∧ isSep2Ch c = false ∧ isKeptCh c = true := by
  unfold isAlnumCh isLowerCh isDigitCh at h
  simp only [Bool.or_eq_true, Bool.and_eq_true, decide_eq_true_eq] at h
  refine ⟨by omega, by omega, by omega, ?_, ?_, ?_, ?_⟩
  all_goals
    simp [isSpaceCh, isSep1Ch, isSep2Ch, isKeptCh, isAlnumCh, isLowerCh,
      isDigitCh] <;> omega

theorem pyUnidecode_id : ∀ (s : Str), (∀ c ∈ s, c < 128) → pyUnidecode s = s := by
  intro s
  induction s with
  | nil => intro h; rfl
  | cons c t ih =>
      intro h
      show (c :: t).flatMap unidecodeChar = c :: t
      rw [List.flatMap_cons]
      have hc : unidecodeChar c = [c] := by
        unfold unidecodeChar
        rw [if_pos (h c (List.mem_cons_self c t))]
      rw [hc]
      have ht := ih (fun d hd => h d (List.mem_cons_of_mem c hd))
      unfold pyUnidecode at ht
      rw [ht]
      rfl

theorem hfold_id : ∀ (ps : List (Nat × Nat)) (s : Str),
    (∀ kv ∈ ps, ∀ c ∈ s, c ≠ kv.1) →
    ps.foldl (fun t kv => t.map (fun c => if c = kv.1 then kv.2 else c)) s = s := by
  intro ps
  induction ps with
  | nil => intro s _; rfl
  | cons kv ps ih =>
      intro s h
      rw [List.foldl_cons]
      have hmap : s.map (fun c => if c = kv.1 then kv.2 else c) = s := by
        have hcg : s.map (fun c => if c = kv.1 then kv.2 else c) = s.map id :=
          List.map_congr_left (fun c hc => by
            rw [if_neg (h kv (List.mem_cons_self kv ps) c hc)]
            rfl)
        rw [hcg, List.map_id]
      rw [hmap]
      exact ih s (fun kv' hkv' => h kv' (List.mem_cons_of_mem kv hkv'))

theorem replace_homoglyphs_id (s : Str) (h : ∀ c ∈ s, c < 163) :
    replace_homoglyphs s = s := by
  unfold replace_homoglyphs
  apply hfold_id
  intro kv hkv c hc
  have hcb := h c hc
  simp only [HOMOGLYPHS, List.mem_cons] at hkv
  rcases hkv with rfl | rfl | rfl | rfl | rfl | rfl | rfl | hkv
  · simp only []; omega
  · simp only []; omega
  · simp only []; omega
  · simp only []; omega
  · simp only []; omega
  · simp only []; omega
  · simp only []; omega
  · simp at hkv

theorem pyLower_id (s : Str) (h : ∀ c ∈ s, ¬(65 ≤ c ∧ c ≤ 90)) :
    pyLower s = s := by
  unfold pyLower
  have hcg : s.map lowerCh = s.map id :=
    List.map_congr_left (fun c hc => by
      unfold lowerCh
      rw [if_neg (by simpa using h c hc)]
      rfl)
  rw [hcg, List.map_id]

theorem dropWhile_id_of (p : Nat → Bool) (s : Str)
    (h : ∀ c ∈ s, p c = false) : s.dropWhile p = s := by
  cases s with
  | nil => rfl
  | cons c t =>
      rw [List.dropWhile_cons, h c (List.mem_cons_self c t)]
      simp

theorem pyStrip_id (s : Str) (h : ∀ c ∈ s, isSpaceCh c = false) :
    pyStrip s = s := by
  unfold pyStrip
  rw [dropWhile_id_of _ _ h]
  rw [dropWhile_id_of _ _ (fun c hc => h c (List.mem_reverse.mp hc))]
  exact List.reverse_reverse s

theorem subfold_id (p : Nat → Bool) : ∀ (s : Str), (∀ c ∈ s, p c = false) →
    s.foldr
      (fun c acc =>
        if p c then (if acc.head? = some 32 then acc else 32 :: acc)
        else c :: acc) [] = s := by
  intro s
  induction s with
  | nil => intro _; rfl
  | cons c t ih =>
      intro h
      rw [List.foldr_cons, h c (List.mem_cons_self c t)]
      rw [ih (fun d hd => h d (List.mem_cons_of_mem c hd))]
      simp

theorem subSep1Space_id (s : Str) (h : ∀ c ∈ s, isSep1Ch c = false) :
    subSep1Space s = s := subfold_id isSep1Ch s h

theorem subWsSpace_id (s : Str) (h : ∀ c ∈ s, isSpaceCh c = false) :
    subWsSpace s = s := subfold_id isSpaceCh s h

theorem cleanAlnum_id (s : Str) (h : ∀ c ∈ s, isAlnumCh c = true) :
    cleanAlnum s = s := by
  unfold cleanAlnum
  exact List.filter_eq_self.mpr h

theorem nnvBase_id (s : Str) (h : ∀ c ∈ s, isAlnumCh c = true) :
    nnvBase s = s := by
  unfold nnvBase
  rw [pyUnidecode_id s (fun c hc => (alnum_class c (h c hc)).1)]
  rw [replace_homoglyphs_id s (fun c hc => (alnum_class c (h c hc)).2.1)]
  rw [pyLower_id s (fun c hc => (alnum_class c (h c hc)).2.2.1)]
  rw [List.filter_eq_self.mpr (fun c hc => (alnum_class c (h c hc)).2.2.2.2.2.2)]
  rw [pyStrip_id s (fun c hc => (alnum_class c (h c hc)).2.2.2.1)]

theorem nnvV1_id (s : Str) (h : ∀ c ∈ s, isAlnumCh c = true) :
    nnvV1 s = s := by
  unfold nnvV1
  rw [subSep1Space_id s (fun c hc => (alnum_class c (h c hc)).2.2.2.2.1)]
  rw [pyStrip_id s (fun c hc => (alnum_class c (h c hc)).2.2.2.1)]
  rw [subWsSpace_id s (fun c hc => (alnum_class c (h c hc)).2.2.2.1)]

/-!  Head preservation and membership through the de-duplication fold. -/

theorem uniqKeep_foldl_acc (l : List Str) :
    ∀ acc : List Str, ∃ r,
      l.foldl (fun acc x => if x ∈ acc then acc else acc ++ [x]) acc = acc ++ r := by
  induction l with
  | nil => intro acc; exact ⟨[], by simp⟩
  | cons x t ih =>
      intro acc
      rw [List.foldl_cons]
      by_cases hx : x ∈ acc
      · rw [if_pos hx]
        exact ih acc
      · rw [if_neg hx]
        obtain ⟨r, hr⟩ := ih (acc ++ [x])
        exact ⟨[x] ++ r, by rw [hr, List.append_assoc]⟩

theorem uniqKeep_cons_head (x : Str) (t : List Str) :
    ∃ r, uniqKeep (x :: t) = x :: r := by
  unfold uniqKeep
  rw [List.foldl_cons, if_neg (List.not_mem_nil x)]
  obtain ⟨r, hr⟩ := uniqKeep_foldl_acc t ([] ++ [x])
  exact ⟨r, by simpa using hr⟩

theorem uniqKeep_foldl_mem (l : List Str) :
    ∀ (acc : List Str) (y : Str), (y ∈ acc ∨ y ∈ l) →
      y ∈ l.foldl (fun acc x => if x ∈ acc then acc else acc ++ [x]) acc := by
  induction l with
  | nil =>
      intro acc y h
      rcases h with h | h
      · simpa using h
      · simp at h
  | cons x t ih =>
      intro acc y h
      rw [List.foldl_cons]
      by_cases hx : x ∈ acc
      · rw [if_pos hx]
        apply ih
        rcases h with h | h
        · exact Or.inl h
        · rcases List.mem_cons.mp h with rfl | h
          · exact Or.inl hx
          · exact Or.inr h
      · rw [if_neg hx]
        apply ih
        rcases h with h | h
        · exact Or.inl (List.mem_append_left _ h)
        · rcases List.mem_cons.mp h with rfl | h
          · exact Or.inl (List.mem_append_right _ (List.mem_singleton.mpr rfl))
          · exact Or.inr h

theorem uniqKeep_mem (l : List Str) (y : Str) (hy : y ∈ l) : y ∈ uniqKeep l := by
  unfold uniqKeep
  exact uniqKeep_foldl_mem l [] y (Or.inr hy)

/-- Any all-alphanumeric non-empty string heads its own variant list. -/
theorem variants_head_alnum (s : Str) (h1 : s ≠ [])
    (h2 : ∀ c ∈ s, isAlnumCh c = true) :
    ∃ r, normalize_name_variants s = s :: r := by
  have hbase : nnvBase s = s := nnvBase_id s h2
  have hv1 : nnvV1 s = s := nnvV1_id s h2
  have ht : nnvRaw12 s = s ::
      [collapse_repeats s, remove_separators (collapse_repeats s),
       de_leet s, de_leet (collapse_repeats s),
       de_leet (remove_separators (collapse_repeats s)),
       stripped_numbers s, stripped_numbers (collapse_repeats s),
       stripped_numbers (remove_separators (collapse_repeats s)),
       stripped_numbers (de_leet s),
       stripped_numbers (de_leet (collapse_repeats s)),
       stripped_numbers (de_leet (remove_separators (collapse_repeats s)))] := by
    simp only [nnvRaw12]
    rw [hv1]
  unfold normalize_name_variants
  rw [hbase, ht]
  obtain ⟨r, hr⟩ := uniqKeep_cons_head s _
  rw [hr, List.map_cons, cleanAlnum_id s h2]
  refine ⟨List.filter (fun c => !c.isEmpty) (List.map cleanAlnum r), ?_⟩
  rw [List.filter_cons, if_pos (by simp [List.isEmpty_iff, h1])]

/-- Any pre-reduction variant with an all-alphanumeric non-empty reduction is
a member of the final variant list. -/
theorem variants_mem_of (raw : Str) (u : Str)
    (hu : u ∈ nnvRaw12 (nnvBase raw)) (hne : cleanAlnum u ≠ []) :
    cleanAlnum u ∈ normalize_name_variants raw := by
  unfold normalize_name_variants
  apply List.mem_filter.mpr
  constructor
  · exact List.mem_map.mpr ⟨u, uniqKeep_mem _ u hu, rfl⟩
  · simp [List.isEmpty_iff, hne]

theorem count_rep_self (n a : Nat) : (List.replicate n a).count a = n := by
  induction n with
  | zero => rfl
  | succ n ih =>
      rw [List.replicate_succ]
      simp [List.count_cons, ih]

theorem count_rep_ne (n a c : Nat) (h : c ≠ a) :
    (List.replicate n a).count c = 0 := by
  induction n with
  | zero => rfl
  | succ n ih =>
      rw [List.replicate_succ]
      simp [List.count_cons, ih, h]

theorem cxA_len : cxA.length = 1000 := by
  unfold cxA
  rw [List.length_append, List.length_replicate]
  decide

theorem cxB_len : cxB.length = 1000 := by
  unfold cxB
  rw [List.length_append, List.length_replicate]
  decide

theorem cxA_ne_nil : cxA ≠ [] := by
  intro h
  have hl := congrArg List.length h
  rw [cxA_len, List.length_nil] at hl
  omega

theorem cxB_ne_nil : cxB ≠ [] := by
  intro h
  have hl := congrArg List.length h
  rw [cxB_len, List.length_nil] at hl
  omega

theorem rep999_ne_nil : (List.replicate 999 97 : Str) ≠ [] := by
  intro h
  have hl := congrArg List.length h
  rw [List.length_replicate, List.length_nil] at hl
  omega

theorem cxA_getD (t : Nat) :
    cxA.getD t 0 = if t < 999 then 97 else if t = 999 then 49 else 0 := by
  unfold cxA
  exact getD_rep_app 999 97 49 t

theorem cxB_getD (t : Nat) :
    cxB.getD t 0 = if t < 999 then 97 else if t = 999 then 50 else 0 := by
  unfold cxB
  exact getD_rep_app 999 97 50 t

theorem cxB_count97 : cxB.count 97 = 999 := by
  unfold cxB
  rw [List.count_append, count_rep_self]
  simp [List.count_cons]

theorem cxB_count49 : cxB.count 49 = 0 := by
  unfold cxB
  rw [List.count_append, count_rep_ne 999 97 49 (by omega)]
  simp [List.count_cons]

theorem popS_cxB_97 : popS cxB 97 := by
  unfold popS
  rw [cxB_len, cxB_count97]
  exact ⟨by norm_num, by norm_num⟩

theorem not_popS_cxB_49 : ¬ popS cxB 49 := by
  unfold popS
  rw [cxB_len, cxB_count49]
  intro hc
  omega

theorem cx_miss : ∀ i ∈ List.range' 0 1000,
    b2jGet (b2jPurged cxB) (cxA.getD i 0) = [] := by
  intro i hi
  have hlt : i < 1000 := by
    rw [List.mem_range'_1] at hi
    omega
  rw [cxA_getD]
  by_cases h9 : i < 999
  · rw [if_pos h9, b2jPurged_get, if_pos popS_cxB_97]
  · rw [if_neg h9, if_pos (by omega : i = 999), b2jPurged_get,
      if_neg not_popS_cxB_49]
    have hlen0 : (posList cxB 49).length = 0 := by
      rw [posList_length, cxB_count49]
    exact List.length_eq_zero.mp hlen0

theorem flm_cx_top :
    find_longest_match cxA cxB (b2jPurged cxB) 0 1000 0 1000 = (0, 0, 999) := by
  have hmiss := flmOuter_all_miss cxA (b2jPurged cxB) 0 1000
    (List.range' 0 (1000 - 0)) [] (0, 0, 0)
    (by intro i hi; apply cx_miss; simpa using hi)
  unfold find_longest_match
  rw [hmiss]
  dsimp only
  rw [extLeft_stop cxA cxB 0 0 0 0 0 (fun hc => Nat.lt_irrefl 0 hc.1)]
  dsimp only
  rw [extRS_exact cxA cxB 1000 1000 0 0 999 0
    (by
      intro t ht
      refine ⟨by omega, by omega, ?_⟩
      have he : 0 + 0 + t = t := by omega
      rw [he, cxA_getD, cxB_getD, if_pos (by omega : t < 999),
        if_pos (by omega : t < 999)])
    (by
      intro hc
      have he : 0 + 0 + 999 = 999 := by omega
      rw [he, cxA_getD, cxB_getD] at hc
      simp at hc)]

theorem flm_cx_rest :
    find_longest_match cxA cxB (b2jPurged cxB) 999 1000 999 1000 =
      (999, 999, 0) := by
  have hmiss := flmOuter_all_miss cxA (b2jPurged cxB) 999 1000
    (List.range' 999 (1000 - 999)) [] (999, 999, 0)
    (by
      intro i hi
      apply cx_miss
      rw [List.mem_range'_1] at hi ⊢
      omega)
  unfold find_longest_match
  rw [hmiss]
  dsimp only
  rw [extLeft_stop cxA cxB 999 999 999 999 0 (fun hc => Nat.lt_irrefl 999 hc.1)]
  dsimp only
  rw [extRS_exact cxA cxB 1000 1000 999 999 0 0
    (by intro t ht; omega)
    (by
      intro hc
      have he : 999 + 0 + 0 = 999 := by omega
      rw [he, cxA_getD, cxB_getD] at hc
      simp at hc)]

theorem matchSum_eq_of_flm (a b : Str) (m : List (Nat × List Nat))
    (alo ahi blo bhi i j k : Nat)
    (h : find_longest_match a b m alo ahi blo bhi = (i, j, k)) :
    matchSum a b m alo ahi blo bhi =
      if k = 0 then 0
      else
        k +
          (if alo < i ∧ blo < j ∧ i + k ≤ ahi ∧ j + k ≤ bhi then
            matchSum a b m alo i blo j
          else 0) +
          (if i + k < ahi ∧ j + k < bhi ∧ alo ≤ i ∧ blo ≤ j then
            matchSum a b m (i + k) ahi (j + k) bhi
          else 0) := by
  rw [matchSum, h]
  dsimp only
  by_cases hk : k = 0
  · rw [dif_pos hk, if_pos hk]
  · rw [dif_neg hk, if_neg hk]
    by_cases hl : alo < i ∧ blo < j ∧ i + k ≤ ahi ∧ j + k ≤ bhi
    · rw [dif_pos hl, if_pos hl]
      by_cases hr : i + k < ahi ∧ j + k < bhi ∧ alo ≤ i ∧ blo ≤ j
      · rw [dif_pos hr, if_pos hr]
      · rw [dif_neg hr, if_neg hr]
    · rw [dif_neg hl, if_neg hl]
      by_cases hr : i + k < ahi ∧ j + k < bhi ∧ alo ≤ i ∧ blo ≤ j
      · rw [dif_pos hr, if_pos hr]
      · rw [dif_neg hr, if_neg hr]

theorem matchSum_cx_rest :
    matchSum cxA cxB (b2jPurged cxB) 999 1000 999 1000 = 0 := by
  rw [matchSum_eq_of_flm cxA cxB (b2jPurged cxB) 999 1000 999 1000 999 999 0
    flm_cx_rest]
  rw [if_pos rfl]

theorem matchSum_cx :
    matchSum cxA cxB (b2jPurged cxB) 0 1000 0 1000 = 999 := by
  rw [matchSum_eq_of_flm cxA cxB (b2jPurged cxB) 0 1000 0 1000 0 0 999
    flm_cx_top]
  simp only [Nat.zero_add]
  rw [if_neg (by omega : ¬ (999 : Nat) = 0)]
  rw [if_neg (by omega :
    ¬ ((0 : Nat) < 0 ∧ (0 : Nat) < 0 ∧ (999 : Nat) ≤ 1000 ∧
      (999 : Nat) ≤ 1000))]
  rw [if_pos (by omega :
    (999 : Nat) < 1000 ∧ (999 : Nat) < 1000 ∧ (0 : Nat) ≤ 0 ∧ (0 : Nat) ≤ 0)]
  rw [matchSum_cx_rest]

theorem smRatio_cx : smRatio cxA cxB = 999 / 1000 := by
  unfold smRatio
  rw [cxA_len, cxB_len]
  rw [if_neg (by omega : ¬ (1000 + 1000 : Nat) = 0)]
  rw [matchSum_cx]
  norm_num

theorem nsim_cx : name_similarity cxA cxB = 999 / 1000 := by
  unfold name_similarity
  rw [if_neg (by simp [List.isEmpty_iff, cxA_ne_nil, cxB_ne_nil])]
  exact smRatio_cx

theorem cxA_alnum : ∀ c ∈ cxA, isAlnumCh c = true := by
  intro c hc
  unfold cxA at hc
  rcases List.mem_append.mp hc with h | h
  · rw [List.eq_of_mem_replicate h]
    decide
  · rw [List.mem_singleton.mp h]
    decide

theorem cxB_alnum : ∀ c ∈ cxB, isAlnumCh c = true := by
  intro c hc
  unfold cxB at hc
  rcases List.mem_append.mp hc with h | h
  · rw [List.eq_of_mem_replicate h]
    decide
  · rw [List.mem_singleton.mp h]
    decide

theorem mvs_cx : max_variant_similarity cxA cxB = 999 / 1000 := by
  obtain ⟨rA, hA⟩ := variants_head_alnum cxA cxA_ne_nil cxA_alnum
  obtain ⟨rB, hB⟩ := variants_head_alnum cxB cxB_ne_nil cxB_alnum
  obtain ⟨rest, hrest⟩ := allPairs_cons_head cxA cxB cxA rA cxB rB hA hB
  unfold max_variant_similarity
  rw [hrest]
  have hstep : scanPairs ((cxA, cxB) :: rest) 0 =
      if (0 : ℚ) < name_similarity cxA cxB then
        (if (999 : ℚ) / 1000 ≤ name_similarity cxA cxB then
          name_similarity cxA cxB
         else scanPairs rest (name_similarity cxA cxB))
      else scanPairs rest 0 := rfl
  rw [hstep, nsim_cx]
  norm_num

theorem mem_raw12_sn1 (base : Str) :
    stripped_numbers (nnvV1 base) ∈ nnvRaw12 base := by
  simp only [nnvRaw12]
  refine List.mem_cons_of_mem _ (List.mem_cons_of_mem _ (List.mem_cons_of_mem _
    (List.mem_cons_of_mem _ (List.mem_cons_of_mem _ (List.mem_cons_of_mem _
    (List.mem_cons_self _ _))))))

theorem rep_mem_variants_cxA :
    List.replicate 999 97 ∈ normalize_name_variants cxA := by
  have hbase : nnvBase cxA = cxA := nnvBase_id cxA cxA_alnum
  have hv1 : nnvV1 cxA = cxA := nnvV1_id cxA cxA_alnum
  have hsn : stripped_numbers (nnvV1 (nnvBase cxA)) = List.replicate 999 97 := by
    rw [hbase, hv1]
    unfold stripped_numbers cxA
    rw [List.filter_append]
    have h1 : (List.replicate 999 97).filter (fun c => !isDigitCh c) =
        List.replicate 999 97 :=
      List.filter_eq_self.mpr (fun c hc => by
        rw [List.eq_of_mem_replicate hc]
        decide)
    have h2 : ([49] : Str).filter (fun c => !isDigitCh c) = [] := by decide
    rw [h1, h2, List.append_nil]
  have hclean : cleanAlnum (List.replicate 999 97) = List.replicate 999 97 :=
    cleanAlnum_id _ (fun c hc => by
      rw [List.eq_of_mem_replicate hc]
      decide)
  have hne : cleanAlnum (stripped_numbers (nnvV1 (nnvBase cxA))) ≠ [] := by
    rw [hsn, hclean]
    exact rep999_ne_nil
  have hm := variants_mem_of cxA _ (mem_raw12_sn1 (nnvBase cxA)) hne
  rw [hsn, hclean] at hm
  exact hm

theorem rep_mem_variants_cxB :
    List.replicate 999 97 ∈ normalize_name_variants cxB := by
  have hbase : nnvBase cxB = cxB := nnvBase_id cxB cxB_alnum
  have hv1 : nnvV1 cxB = cxB := nnvV1_id cxB cxB_alnum
  have hsn : stripped_numbers (nnvV1 (nnvBase cxB)) = List.replicate 999 97 := by
    rw [hbase, hv1]
    unfold stripped_numbers cxB
    rw [List.filter_append]
    have h1 : (List.replicate 999 97).filter (fun c => !isDigitCh c) =
        List.replicate 999 97 :=
      List.filter_eq_self.mpr (fun c hc => by
        rw [List.eq_of_mem_replicate hc]
        decide)
    have h2 : ([50] : Str).filter (fun c => !isDigitCh c) = [] := by decide
    rw [h1, h2, List.append_nil]
  have hclean : cleanAlnum (List.replicate 999 97) = List.replicate 999 97 :=
    cleanAlnum_id _ (fun c hc => by
      rw [List.eq_of_mem_replicate hc]
      decide)
  have hne : cleanAlnum (stripped_numbers (nnvV1 (nnvBase cxB))) ≠ [] := by
    rw [hsn, hclean]
    exact rep999_ne_nil
  have hm := variants_mem_of cxB _ (mem_raw12_sn1 (nnvBase cxB)) hne
  rw [hsn, hclean] at hm
  exact hm

/-- C1 (counterexample): on `"a"*999 + "1"` versus `"a"*999 + "2"` the first
scanned pair has ratio exactly `0.999`, so the `>= 0.999` short-circuit
returns it, although the digit-stripped variants `"a"*999` are identical and
give the true cross-product maximum `1.0`: `max_variant_similarity` does not
return the maximum ratio over the variant cross product. -/
theorem C1_counterexample :
    max_variant_similarity cxA cxB ≠ maxCrossRatio cxA cxB := by
  have h1 : name_similarity (List.replicate 999 97) (List.replicate 999 97)
      = 1 := by
    unfold name_similarity
    rw [if_neg (by simp [List.isEmpty_iff, rep999_ne_nil])]
    exact smRatio_self _ rep999_ne_nil
  have hpair : ((List.replicate 999 97 : Str), (List.replicate 999 97 : Str)) ∈
      allPairs cxA cxB := by
    unfold allPairs
    exact List.mem_flatMap.mpr ⟨List.replicate 999 97, rep_mem_variants_cxA,
      List.mem_map.mpr ⟨List.replicate 999 97, rep_mem_variants_cxB, rfl⟩⟩
  have hge : (1 : ℚ) ≤ maxCrossRatio cxA cxB := by
    unfold maxCrossRatio
    have hm := mcFold_ge_mem (allPairs cxA cxB) _ hpair
    dsimp only at hm
    rw [h1] at hm
    exact hm
  rw [mvs_cx]
  intro heq
  rw [← heq] at hge
  norm_num at hge

/-!  Evaluation of the matcher on the C7 counterexample usernames. -/

theorem ovfThreshold_eq : ovfThreshold = 2 ^ 1024 - 2 ^ 970 := by
  norm_num [ovfThreshold]

theorem ovf_le_pow400 : ovfThreshold ≤ ((10 : ℤ) ^ 400).natAbs := by
  rw [Int.natAbs_pow, ovfThreshold_eq]
  have he : ((10 : ℤ)).natAbs = 10 := rfl
  rw [he]
  have h3 : (2 : ℕ) ^ 1024 ≤ 10 ^ 400 := by
    calc (2 : ℕ) ^ 1024 ≤ 2 ^ 1200 :=
          Nat.pow_le_pow_right (by norm_num) (by norm_num)
      _ = (2 ^ 3 : ℕ) ^ 400 := by rw [← pow_mul]
      _ ≤ 10 ^ 400 := Nat.pow_le_pow_left (by norm_num) 400
  exact le_trans (Nat.sub_le _ _) h3

/-- C10 (counterexample): `numeric_score` is not total.  For an `int` input
beyond binary64 range — here `10^400`, reachable since `json.load` parses
arbitrary-precision integers — the `isinstance` branch calls `float(val)`
outside the `try` and CPython raises `OverflowError`, so the function
neither returns a float nor `None` for every `int` input. -/
theorem C10_counterexample :
    numeric_score (PyVal.int (10 ^ 400)) = Except.error () := by
  simp only [numeric_score]
  rw [if_pos ovf_le_pow400]

/-- C10 (amended): `numeric_score` never raises and returns an optional
float — except that on an `int` (the `isinstance` branch, whose
`float(val)` sits outside the `try`) of magnitude at least
`2^1024 - 2^970`, `float()` overflows binary64 and the `OverflowError`
escapes.  Within binary64 range `int`s map to floats; every `float` input
(including `nan`/`±inf`) maps to itself; the booleans map to `1.0`/`0.0`
(`bool` being an `int` subclass); an ASCII string yields a float exactly
when it parses under Python's `float()` grammar — in particular `"nan"`
and `"inf"` are accepted — and `None`, lists and dicts yield `None`, the
`float(str(val))` failure being caught by the `try`. -/
theorem C10_amended :
    (∀ n : ℤ, n.natAbs < 2 ^ 1024 - 2 ^ 970 →
      numeric_score (PyVal.int n) = Except.ok (some (PyFloat.fin n))) ∧
    (∀ n : ℤ, 2 ^ 1024 - 2 ^ 970 ≤ n.natAbs →
      numeric_score (PyVal.int n) = Except.error ()) ∧
    (∀ f, numeric_score (PyVal.float f) = Except.ok (some f)) ∧
    numeric_score (PyVal.bool true) = Except.ok (some (PyFloat.fin 1)) ∧
    numeric_score (PyVal.bool false) = Except.ok (some (PyFloat.fin 0)) ∧
    (∀ s, (∀ c ∈ s, c < 128) →
      numeric_score (PyVal.str s) = Except.ok (pyFloatOfStr s)) ∧
    numeric_score (PyVal.str (strOf "nan")) = Except.ok (some PyFloat.nan) ∧
    numeric_score (PyVal.str (strOf "inf")) = Except.ok (some PyFloat.inf) ∧
    numeric_score PyVal.none = Except.ok Option.none ∧
    (∀ l, numeric_score (PyVal.arr l) = Except.ok Option.none) ∧
    (∀ o, numeric_score (PyVal.obj o) = Except.ok Option.none) := by
  refine ⟨?_, ?_, fun f => rfl, ?_, ?_, fun s _ => rfl, ?_, ?_, ?_,
    fun l => rfl, fun o => rfl⟩
  · intro n hn
    simp only [numeric_score]
    rw [ovfThreshold_eq]
    rw [if_neg (Nat.not_le.mpr hn)]
  · intro n hn
    simp only [numeric_score]
    rw [ovfThreshold_eq]
    rw [if_pos hn]
  · with_unfolding_all rfl
  · with_unfolding_all rfl
  · with_unfolding_all rfl
  · with_unfolding_all rfl
  · with_unfolding_all rfl

/-- Witness for the amended C10 statement at concrete inputs: `5` is inside
binary64 range and extracts to `5.0`; `10^400` overflows and raises; the
ASCII string `"1.5"` goes through the `float()` grammar. -/
theorem C10_amended_witness :
    numeric_score (PyVal.int 5) = Except.ok (some (PyFloat.fin 5)) ∧
    numeric_score (PyVal.int (10 ^ 400)) = Except.error () ∧
    numeric_score (PyVal.str (strOf "1.5")) =
      Except.ok (pyFloatOfStr (strOf "1.5")) :=
  ⟨C10_amended.1 5 (by
      have he : ((5 : ℤ)).natAbs = 5 := rfl
      rw [he, ← ovfThreshold_eq]
      decide),
    C10_amended.2.1 ((10 : ℤ) ^ 400) (by rw [← ovfThreshold_eq]; exact ovf_le_pow400),
    C10_amended.2.2.2.2.2.1 (strOf "1.5") (by decide)⟩

end LF
